import Mathlib

/-!
Verification of the project-cost-analyzer core (src/project.py, src/calculator.py,
src/utils.py, src/risk_simulator.py) against its natural-language specification.

Conventions of the shallow embedding:
* Python floats are modelled as exact rationals (`ℚ`); decimal literals such as
  `1.1` denote the corresponding exact rational.
* Python `int` is modelled as `Int`.
* Python strings are handled at the character-list level where Python calls
  `str.lower`/`str.replace`/slicing, so that everything evaluates by kernel
  reduction.
* Python dicts keyed by strings are modelled as association lists
  `List (String × β)` with insertion-order-preserving overwrite (`dictInsert`),
  matching CPython dict semantics (lookup, ordered keys, ordered values).
* Fallible code paths (KeyError / AttributeError, loops whose termination is
  not structural) are modelled with `Option` and, where needed, an explicit
  fuel parameter; `none` means the Python code does not return normally at
  that fuel (it raises, or needs more iterations, or loops forever).
* `random.uniform(a, b)` is modelled as `a + (b - a) * r` where `r` is the
  next value of an explicit draw oracle `Nat → ℚ`; `random.gauss` draws the
  oracle value directly.  The draw index is threaded explicitly.
-/

namespace PCA

/-- A quotation-mark character (ASCII 39), used to build the exact Python
error strings of `validate_dependencies`. -/
def qm : String := String.singleton (Char.ofNat 39)

instance {α β : Type} [DecidableEq α] [DecidableEq β] :
    DecidableEq (Except α β) := fun a b =>
  match a, b with
  | .ok x, .ok y =>
      if h : x = y then isTrue (by rw [h])
      else isFalse (fun h' => h (Except.ok.inj h'))
  | .error x, .error y =>
      if h : x = y then isTrue (by rw [h])
      else isFalse (fun h' => h (Except.error.inj h'))
  | .ok _, .error _ => isFalse (fun h' => Except.noConfusion h')
  | .error _, .ok _ => isFalse (fun h' => Except.noConfusion h')

/-- `Task` from src/project.py.  `task_id` is always set once construction is
finished (`__post_init__` fills it in when it was not supplied), so it is a
plain `String` field here. -/
structure Task where
  name : String
  estimated_days : ℚ
  cost_per_day : ℚ
  dependencies : List String
  task_id : String
deriving DecidableEq, Repr

/-- Python `name.lower().replace(" ", "_")[:20]`, performed on the character
list (`lower` maps each character, `replace` with a single-character pattern
substitutes characters, the slice takes the first 20 characters). -/
def deriveTaskId (name : String) : String :=
  String.mk (((name.data.map Char.toLower).map
    (fun c => if c = ' ' then '_' else c)).take 20)

/-- `Task.__post_init__` (src/project.py lines 20-24): the only thing task
construction does beyond storing the fields is derive `task_id` from the name
when no id was supplied.  There is no validation of `estimated_days` or
`cost_per_day`. -/
def mkTask (name : String) (estimated_days cost_per_day : ℚ)
    (dependencies : List String) (task_id : Option String) : Task :=
  { name := name
    estimated_days := estimated_days
    cost_per_day := cost_per_day
    dependencies := dependencies
    task_id :=
      match task_id with
      | some i => i
      | none => deriveTaskId name }

/-- `Task.base_cost`. -/
def Task.base_cost (t : Task) : ℚ := t.estimated_days * t.cost_per_day

/-- `Project` from src/project.py. -/
structure Project where
  name : String
  tasks : List Task
  team_size : Int
  risk_level : String
  description : String
deriving DecidableEq, Repr

/-- The valid risk levels of `Project.__post_init__`. -/
def validRiskLevels : List String := ["low", "medium", "high"]

/-- Python `s.lower()` at the character level. -/
def strLower (s : String) : String := String.mk (s.data.map Char.toLower)

/-- `Project.__post_init__` (src/project.py lines 52-65): rejects non-positive
team size, then an empty task list, then an unknown risk level, and finally
normalizes the risk level to lowercase.  Task durations, costs and task-id
uniqueness are not inspected. -/
def mkProject (name : String) (tasks : List Task) (team_size : Int)
    (risk_level : String) (description : String) : Except String Project :=
  if team_size ≤ 0 then
    .error "Team size must be at least 1"
  else if tasks = [] then
    .error "Project must have at least one task"
  else if ¬ (strLower risk_level ∈ validRiskLevels) then
    .error "Risk level must be one of [low, medium, high]"
  else
    .ok { name := name, tasks := tasks, team_size := team_size,
          risk_level := strLower risk_level, description := description }

/-- `Project.total_base_cost`. -/
def Project.total_base_cost (p : Project) : ℚ :=
  (p.tasks.map Task.base_cost).sum

/-- `Project.total_estimated_days`. -/
def Project.total_estimated_days (p : Project) : ℚ :=
  (p.tasks.map Task.estimated_days).sum

/-- `Project.task_count`. -/
def Project.task_count (p : Project) : Nat := p.tasks.length

/-- `Project.get_task_by_id`: first task whose `task_id` matches. -/
def Project.get_task_by_id (p : Project) (task_id : String) : Option Task :=
  p.tasks.find? (fun t => t.task_id = task_id)

/-- `get_risk_multiplier` from src/utils.py: fixed table with default 1.3. -/
def get_risk_multiplier (risk_level : String) : ℚ :=
  let r := strLower risk_level
  if r = "low" then 1.1
  else if r = "medium" then 1.3
  else if r = "high" then 1.6
  else 1.3

/-! ## Python-dict helpers -/

/-- CPython dict assignment `m[k] = v`: overwrite in place if the key exists
(keeping its position), append otherwise. -/
def dictInsert {β : Type} (m : List (String × β)) (k : String) (v : β) :
    List (String × β) :=
  match m with
  | [] => [(k, v)]
  | (k', v') :: rest =>
      if k' = k then (k, v) :: rest else (k', v') :: dictInsert rest k v

/-- `m[k]` with a default, i.e. `dict.get(k, d)`; also used for `m[k]` at call
sites where the key is always present. -/
def lookupD {β : Type} (m : List (String × β)) (k : String) (d : β) : β :=
  match m.lookup k with
  | some v => v
  | none => d

/-- `m.values()`. -/
def dictValues {β : Type} (m : List (String × β)) : List β := m.map Prod.snd

/-- `m.keys()`. -/
def dictKeys {β : Type} (m : List (String × β)) : List String := m.map Prod.fst

/-- Python `max` over a list of numbers (`none` on the empty list, where
Python raises). -/
def pyMax (l : List ℚ) : Option ℚ :=
  match l with
  | [] => none
  | x :: xs => some (xs.foldl max x)

/-- Python `min` over a list of numbers (`none` on the empty list). -/
def pyMin (l : List ℚ) : Option ℚ :=
  match l with
  | [] => none
  | x :: xs => some (xs.foldl min x)

/-! ## calculate_percentile (src/utils.py lines 114-132) -/

/-- Python `int()` applied to a rational: truncation toward zero. -/
def pyTrunc (q : ℚ) : Int := Int.tdiv q.num q.den

/-- Python list indexing `l[i]`, including negative indices from the end;
`none` models an IndexError. -/
def pyIndex (l : List ℚ) (i : Int) : Option ℚ :=
  if 0 ≤ i then l.get? i.toNat
  else if 0 ≤ i + l.length then l.get? (i + l.length).toNat
  else none

/-- `calculate_percentile`: empty input returns 0.0; otherwise sort ascending
(`sorted`, modelled by insertion sort — for a list of numbers any sorting
algorithm returns the same list), take index `int(n * (p/100))` clamped above
by `n-1`. -/
def calculate_percentile (values : List ℚ) (percentile : ℚ) : Option ℚ :=
  if values = [] then some 0
  else
    let s := values.insertionSort (· ≤ ·)
    let index := pyTrunc ((values.length : ℚ) * (percentile / 100))
    let index := min index ((values.length : Int) - 1)
    pyIndex s index

/-! ## SimulationResult (src/risk_simulator.py lines 13-56) -/

structure SimulationResult where
  costs : List ℚ
  timelines : List ℚ
  iterations : Int
deriving DecidableEq, Repr

/-- `SimulationResult.cost_mean`. -/
def SimulationResult.cost_mean (r : SimulationResult) : ℚ :=
  if r.costs = [] then 0 else r.costs.sum / (r.costs.length : ℚ)

/-- `SimulationResult.timeline_mean`. -/
def SimulationResult.timeline_mean (r : SimulationResult) : ℚ :=
  if r.timelines = [] then 0 else r.timelines.sum / (r.timelines.length : ℚ)

/-- `SimulationResult.cost_std`.  Python computes `variance ** 0.5`; since ℚ
has no square root, the square-root operation is a parameter — every claim
proved here about `cost_std` is independent of its interpretation. -/
def SimulationResult.cost_std (sqrt : ℚ → ℚ) (r : SimulationResult) : ℚ :=
  if r.costs = [] then 0
  else
    let mean := r.cost_mean
    let variance :=
      (r.costs.map (fun x => (x - mean) ^ 2)).sum / (r.costs.length : ℚ)
    sqrt variance

/-- `SimulationResult.timeline_std` (same square-root convention). -/
def SimulationResult.timeline_std (sqrt : ℚ → ℚ) (r : SimulationResult) : ℚ :=
  if r.timelines = [] then 0
  else
    let mean := r.timeline_mean
    let variance :=
      (r.timelines.map (fun x => (x - mean) ^ 2)).sum / (r.timelines.length : ℚ)
    sqrt variance

/-- `SimulationResult.get_cost_percentile`. -/
def SimulationResult.get_cost_percentile (r : SimulationResult) (p : ℚ) :
    Option ℚ :=
  calculate_percentile r.costs p

/-- `SimulationResult.get_timeline_percentile`. -/
def SimulationResult.get_timeline_percentile (r : SimulationResult) (p : ℚ) :
    Option ℚ :=
  calculate_percentile r.timelines p

/-! ## The resource-constrained scheduler
(`ProjectCalculator._simulate_resource_constrained_schedule`,
src/calculator.py lines 89-175) -/

/-- The first loop of `_simulate_resource_constrained_schedule` (lines
104-112): for each task in insertion order, `earliest_start` is the max of
the finish times of those dependencies that already appear in the map built
so far (dependencies not yet in the map — later tasks or dangling ids —
contribute nothing), and the finish time is `earliest_start` plus the task's
duration.  Returns the pair (start-times map, finish-times map). -/
def forwardStep (maps : List (String × ℚ) × List (String × ℚ)) (t : Task) :
    List (String × ℚ) × List (String × ℚ) :=
  let earliest := t.dependencies.foldl
    (fun acc dep =>
      match maps.2.lookup dep with
      | some f => max acc f
      | none => acc) 0
  (dictInsert maps.1 t.task_id earliest,
   dictInsert maps.2 t.task_id (earliest + t.estimated_days))

def buildStartFinish (tasks : List Task) :
    List (String × ℚ) × List (String × ℚ) :=
  tasks.foldl forwardStep ([], [])

/-- State of the discrete-event loop of
`_simulate_resource_constrained_schedule` (lines 126-173). -/
structure SimState where
  remaining : List Task
  active : List Task
  sstart : List (String × ℚ)
  sfin : List (String × ℚ)
  now : ℚ
deriving DecidableEq, Repr

/-- Python's `deps_complete` test (lines 143-146): every dependency has a
recorded scheduled finish time that is `≤` the current clock.  A dependency
with no recorded finish (including a dangling id) is never complete. -/
def depsComplete (sfin : List (String × ℚ)) (now : ℚ) (t : Task) : Prop :=
  ∀ dep ∈ t.dependencies, ∃ f, sfin.lookup dep = some f ∧ f ≤ now

instance (sfin : List (String × ℚ)) (now : ℚ) (t : Task) :
    Decidable (depsComplete sfin now t) := by
  unfold depsComplete; infer_instance

/-- Starting one admitted task (lines 152-156): record its start (the current
clock, unchanged while tasks are being started) and finish times, append it
to the active list, and remove it from the remaining list. -/
def startTask (st : SimState) (t : Task) : SimState :=
  { st with
    sstart := dictInsert st.sstart t.task_id st.now
    sfin := dictInsert st.sfin t.task_id (st.now + t.estimated_days)
    active := st.active ++ [t]
    remaining := st.remaining.erase t }

/-- The retired (still-running) active list of lines 134-137. -/
def retireList (s : SimState) : List Task :=
  s.active.filter (fun t => decide (s.now < lookupD s.sfin t.task_id 0))

/-- The `can_start` list of lines 140-149: remaining tasks whose dependencies
are all complete, admitted while the retired active list is below capacity
(the length test reads the retired list, which does not change while
`can_start` is being collected — so all of them are admitted). -/
def canStartList (team : Int) (s : SimState) : List Task :=
  s.remaining.filter
    (fun t => decide (depsComplete s.sfin s.now t) &&
              decide (((retireList s).length : Int) < team))

/-- Retiring and admission: phase one of the loop body. -/
def retireAdmit (team : Int) (s : SimState) : SimState :=
  (canStartList team s).foldl startTask { s with active := retireList s }

/-- Clock advance (lines 158-173), phase two: to the earliest finish among
active tasks; else, for a blocked head task, to the maximum recorded finish
among its dependencies (0 for an unrecorded one); else by the 0.1 epsilon for
a dependency-free head (unreachable when the team has at least one member);
else unchanged (the loop then exits). -/
def advance (s : SimState) : SimState :=
  if s.active ≠ [] then
    { s with
      now := match pyMin (s.active.map (fun t => lookupD s.sfin t.task_id 0)) with
             | some m => m
             | none => s.now }
  else
    match s.remaining with
    | [] => s
    | nextTask :: _ =>
        if nextTask.dependencies ≠ [] then
          { s with
            now := match pyMax (nextTask.dependencies.map
                     (fun dep => lookupD s.sfin dep 0)) with
                   | some m => m
                   | none => s.now }
        else
          { s with now := s.now + 0.1 }

/-- One iteration of the `while remaining_tasks or active_tasks` loop body:
retire finished tasks, admit the ready tasks, advance the clock. -/
def simStep (team : Int) (s : SimState) : SimState :=
  advance (retireAdmit team s)

/-- Result extraction (line 175): `max(scheduled_finish.values())` if any,
else 0.0. -/
def simResult (s : SimState) : ℚ :=
  match pyMax (dictValues s.sfin) with
  | some m => m
  | none => 0

/-- The `while remaining_tasks or active_tasks` loop, with fuel; `none` means
the loop has not finished within `fuel` iterations. -/
def simLoop (team : Int) : Nat → SimState → Option ℚ
  | 0, _ => none
  | fuel + 1, s =>
      if s.remaining = [] ∧ s.active = [] then some (simResult s)
      else simLoop team fuel (simStep team s)

/-- The sort key of line 120-123: ascending earliest start, then descending
duration; Python's stable `sorted` is modelled by insertion sort on the
corresponding (non-strict) lexicographic order. -/
def schedOrder (sstart : List (String × ℚ)) (t u : Task) : Prop :=
  lookupD sstart t.task_id 0 < lookupD sstart u.task_id 0 ∨
    (lookupD sstart t.task_id 0 = lookupD sstart u.task_id 0 ∧
     -t.estimated_days ≤ -u.estimated_days)

instance (sstart : List (String × ℚ)) (t u : Task) :
    Decidable (schedOrder sstart t u) := by
  unfold schedOrder; infer_instance

/-- `_simulate_resource_constrained_schedule`: dependency-only forward pass;
if `team_size ≥ task_count` return its maximum finish directly, otherwise run
the discrete-event loop on the tasks sorted by `schedOrder`. -/
def simulateRCS (p : Project) (fuel : Nat) : Option ℚ :=
  let maps := buildStartFinish p.tasks
  if (p.tasks.length : Int) ≤ p.team_size then
    some (match pyMax (dictValues maps.2) with
          | some m => m
          | none => 0)
  else
    let sorted := p.tasks.insertionSort (schedOrder maps.1)
    simLoop p.team_size fuel
      { remaining := sorted, active := [], sstart := [], sfin := [], now := 0 }

/-! ### Specification-side forward propagation (for the claim about the
no-contention path).  "Forward propagation over a topological order: for each
task, finish = max over its dependencies' finish times plus its own duration"
— computed over the project's task list, requiring every dependency to have
an already-recorded finish time. -/

/-- Forward propagation following the specification's words: processes the
tasks in list order and fails (`none`) if a task's dependency has no finish
time yet — so it is total exactly on topologically ordered task lists with
all dependencies resolving. -/
def specStep (m : List (String × ℚ)) (t : Task) : Option (List (String × ℚ)) := do
  let fins ← t.dependencies.mapM (fun dep => m.lookup dep)
  pure (dictInsert m t.task_id (fins.foldl max 0 + t.estimated_days))

def specForwardMap (tasks : List Task) : Option (List (String × ℚ)) :=
  tasks.foldlM specStep []

/-- "The result is the maximum finish over all tasks" (0 for no tasks). -/
def specMaxFinish (tasks : List Task) : Option ℚ := do
  let m ← specForwardMap tasks
  pure (match pyMax (dictValues m) with
        | some v => v
        | none => 0)

/-- Decidable check that a task list is topologically ordered: every declared
dependency of each task appears among the task ids occurring strictly earlier
in the list. -/
def topoOK (seen : List String) : List Task → Bool
  | [] => true
  | t :: rest =>
      t.dependencies.all (fun d => seen.contains d) &&
        topoOK (seen ++ [t.task_id]) rest

/-! ## Critical path (`Project.get_critical_path`, src/project.py lines
169-229) -/

/-- The body of the Kahn forward pass (lines 185-201): pop the queue head,
then scan the full task list; every task that lists the popped id as a
dependency gets its earliest start raised to
`earliest_start[current] + current.estimated_days`, its in-degree
decremented, and is enqueued when the in-degree reaches 0.  All three
structures are threaded through the scan, as in the Python loop.  `none`
models fuel exhaustion or the (unreachable for queue members) failed task
lookup. -/
def kahnLoop (p : Project) :
    Nat → List (String × ℚ) → List (String × Int) → List String →
    Option (List (String × ℚ))
  | 0, _, _, _ => none
  | fuel + 1, earliest, indeg, queue =>
      match queue with
      | [] => some earliest
      | cur :: rest =>
          match p.get_task_by_id cur with
          | none => none
          | some curTask =>
              let res := p.tasks.foldl
                (fun (acc : List (String × ℚ) × List (String × Int) ×
                      List String) t =>
                  if cur ∈ t.dependencies then
                    let e1 := dictInsert acc.1 t.task_id
                      (max (lookupD acc.1 t.task_id 0)
                           (lookupD acc.1 cur 0 + curTask.estimated_days))
                    let i1 := dictInsert acc.2.1 t.task_id
                      (lookupD acc.2.1 t.task_id 0 - 1)
                    let q1 := if lookupD i1 t.task_id 0 = 0
                      then acc.2.2 ++ [t.task_id] else acc.2.2
                    (e1, i1, q1)
                  else acc)
                (earliest, indeg, rest)
              kahnLoop p fuel res.1 res.2.1 res.2.2

/-- The key `earliest_start[tid] + get_task_by_id(tid).estimated_days` used
to select the terminal task (lines 204-207). -/
def endTaskKey (p : Project) (earliest : List (String × ℚ)) (tid : String) :
    ℚ :=
  lookupD earliest tid 0 +
    (match p.get_task_by_id tid with
     | some t => t.estimated_days
     | none => 0)

/-- Python `max(keys, key=...)`: the first key attaining the maximum, keys
iterated in dict insertion order; `none` on an empty dict (Python raises). -/
def endTaskId (p : Project) (earliest : List (String × ℚ)) : Option String :=
  match dictKeys earliest with
  | [] => none
  | k :: ks =>
      some (ks.foldl
        (fun best k2 =>
          if endTaskKey p earliest best < endTaskKey p earliest k2
          then k2 else best) k)

/-- The predecessor search of lines 222-227: first dependency (in declaration
order) whose `earliest_start + estimated_days` equals the target.  The outer
`none` models the KeyError Python raises when a dependency id has no
`earliest_start` entry (a dangling reference); `some none` means no
dependency matched (Python leaves `current_id = None`). -/
def findPred (p : Project) (earliest : List (String × ℚ)) (target : ℚ) :
    List String → Option (Option String)
  | [] => some none
  | d :: rest =>
      match earliest.lookup d with
      | none => none
      | some e =>
          match p.get_task_by_id d with
          | none => none
          | some dt =>
              if e + dt.estimated_days = target then some (some d)
              else findPred p earliest target rest

/-- The backtracking loop of lines 210-228, prepending the current task and
moving to the matching predecessor; a predecessor id that is falsy in Python
(the empty string, or `None` modelled by `some none` from `findPred`) ends
the loop. -/
def backtrack (p : Project) (earliest : List (String × ℚ)) :
    Nat → String → List Task → Option (List Task)
  | 0, _, _ => none
  | fuel + 1, cur, acc =>
      match p.get_task_by_id cur with
      | none => none
      | some t =>
          let acc' := t :: acc
          if t.dependencies = [] then some acc'
          else
            match findPred p earliest (lookupD earliest t.task_id 0)
                t.dependencies with
            | none => none
            | some none => some acc'
            | some (some d) =>
                if d = "" then some acc'
                else backtrack p earliest fuel d acc'

/-- The Kahn forward pass of lines 177-201: initialize earliest starts to 0
and in-degrees to the dependency counts, seed the queue with the
zero-in-degree task ids, then run the queue loop. -/
def kahnEarliest (p : Project) (fuel : Nat) : Option (List (String × ℚ)) :=
  let earliest0 := p.tasks.foldl (fun m t => dictInsert m t.task_id 0) []
  let indeg0 := p.tasks.foldl
    (fun m t => dictInsert m t.task_id (t.dependencies.length : Int)) []
  let queue0 := (p.tasks.filter
    (fun t => lookupD indeg0 t.task_id 0 = 0)).map Task.task_id
  kahnLoop p fuel earliest0 indeg0 queue0

/-- `Project.get_critical_path`: Kahn forward pass for earliest starts,
first-maximal terminal task, then backtracking along matching dependencies.
Returns the critical path in execution order. -/
def Project.get_critical_path (p : Project) (fuel : Nat) :
    Option (List Task) :=
  match kahnEarliest p fuel with
  | none => none
  | some earliest =>
      match endTaskId p earliest with
      | none => none
      | some endId =>
          if endId = "" then some []
          else backtrack p earliest fuel endId []

/-! ## Dependency validation and cycle detection
(`Project.validate_dependencies` and `Project._has_circular_dependency`,
src/project.py lines 112-167)

Python keeps two sets, `visited` and `rec_stack ⊆ visited`; `rec_stack` holds
exactly the nodes of the current recursion path and `visited ∖ rec_stack` the
fully-processed nodes.  The embedding represents that state as the pair of
lists `done` (fully processed, most recent first) and `path` (the recursion
path, deepest first); `visited` is their union.  The two mutually recursive
phases of the traversal — entering a node, and walking its neighbor list —
are dispatched through a sum argument, and every call consumes one unit of
fuel, so the recursion is structural and the function evaluates by kernel
reduction; `dfsFuel` below is proved sufficient. -/

/-- The adjacency map `{task.task_id: task.dependencies}` (dict
comprehension: a duplicated id keeps the last task's list). -/
def graphOf (p : Project) : List (String × List String) :=
  p.tasks.foldl (fun m t => dictInsert m t.task_id t.dependencies) []

/-- `graph.get(node, [])`. -/
def adj (g : List (String × List String)) (n : String) : List String :=
  match g.lookup n with
  | some l => l
  | none => []

/-- The recursive `has_cycle` of lines 148-160.  `.inl node` enters `node`
(adds it to `visited` and `rec_stack`, then walks its neighbors); `.inr
(node, nbs)` walks the remaining neighbors `nbs` of `node`: an unvisited
neighbor is entered recursively, a neighbor on the recursion path reports a
cycle, any other visited neighbor is skipped.  When the walk ends, `node`
moves from the path to `done` (Python: `rec_stack.remove(node); return
False`).  Returns the flag and the updated `done`; the path is the caller's
unchanged `path`. -/
def dfsGo (g : List (String × List String)) :
    Nat → List String → List String → String ⊕ (String × List String) →
    Option (Bool × List String)
  | 0, _, _, _ => none
  | fuel + 1, done, path, .inl node =>
      match dfsGo g fuel done (node :: path) (.inr (node, adj g node)) with
      | none => none
      | some (true, d) => some (true, d)
      | some (false, d) => some (false, node :: d)
  | _ + 1, done, _, .inr (_, []) => some (false, done)
  | fuel + 1, done, path, .inr (node, nb :: rest) =>
      if nb ∈ done ∨ nb ∈ path then
        if nb ∈ path then some (true, done)
        else dfsGo g fuel done path (.inr (node, rest))
      else
        match dfsGo g fuel done path (.inl nb) with
        | none => none
        | some (true, d) => some (true, d)
        | some (false, d) => dfsGo g fuel d path (.inr (node, rest))

/-- The outer loop of lines 162-165: start a traversal from every
not-yet-visited task id, reporting a cycle as soon as one traversal finds
one. -/
def dfsRoot (g : List (String × List String)) (fuel : Nat) :
    List String → List Task → Option Bool
  | _, [] => some false
  | done, t :: rest =>
      if t.task_id ∈ done then dfsRoot g fuel done rest
      else
        match dfsGo g fuel done [] (.inl t.task_id) with
        | none => none
        | some (true, _) => some true
        | some (false, d) => dfsRoot g fuel d rest

/-- Every node the traversal can ever touch: all task ids and all declared
dependency ids. -/
def universeOf (p : Project) : List String :=
  p.tasks.map Task.task_id ++ (p.tasks.map Task.dependencies).flatten

/-- Sufficient fuel for the full traversal (proved adequate below): one unit
per node entry plus one per neighbor edge, over the whole universe. -/
def dfsFuel (p : Project) : Nat :=
  ((universeOf p).map (fun x => 1 + (adj (graphOf p) x).length)).sum + 1

/-- `Project._has_circular_dependency`, with the canonical fuel. -/
def Project.has_circular_dependency (p : Project) : Option Bool :=
  dfsRoot (graphOf p) (dfsFuel p) [] p.tasks

/-- The boolean the rest of the code consumes (the traversal always
terminates; adequacy is proved below). -/
def Project.has_circular_bool (p : Project) : Bool :=
  p.has_circular_dependency.getD false

/-- `Project.validate_dependencies` (lines 112-134): one error per dependency
reference that is not among the project's task ids, in task order then
declaration order, followed by a single circular-dependency error when the
cycle check fires. -/
def Project.validate_dependencies (p : Project) : List String :=
  let task_ids := p.tasks.map Task.task_id
  let missing := p.tasks.foldl
    (fun acc t =>
      acc ++ (t.dependencies.filter (fun d => ¬ task_ids.contains d)).map
        (fun d => "Task " ++ qm ++ t.name ++ qm ++
          " depends on non-existent task " ++ qm ++ d ++ qm))
    []
  missing ++ (if p.has_circular_bool then ["Project has circular dependencies"]
              else [])

/-! ## Calculator timelines (src/calculator.py lines 53-87) -/

/-- Sum of estimated days over a task list. -/
def sumDays (l : List Task) : ℚ := (l.map Task.estimated_days).sum

/-- `ProjectCalculator.calculate_sequential_timeline`:
`total_estimated_days * risk_multiplier`. -/
def calculate_sequential_timeline (p : Project) : ℚ :=
  p.total_estimated_days * get_risk_multiplier p.risk_level

/-- `ProjectCalculator.calculate_parallel_timeline`: 0 for no tasks; else
`max(resource-constrained schedule × multiplier, critical-path duration ×
multiplier)`. -/
def calculate_parallel_timeline (p : Project) (fuel : Nat) : Option ℚ :=
  if p.tasks = [] then some 0
  else
    match p.get_critical_path fuel with
    | none => none
    | some cp =>
        let cpd := sumDays cp
        match simulateRCS p fuel with
        | none => none
        | some t =>
            let m := get_risk_multiplier p.risk_level
            some (max (t * m) (cpd * m))

/-! ## Monte Carlo simulator (`RiskSimulator`, src/risk_simulator.py lines
94-239).  Randomness is modelled by an explicit oracle `u : Nat → ℚ` of
successive draws; `random.uniform(a, b)` becomes `a + (b - a) * u k` and
`random.gauss(0, 0.1)` draws `u k` directly.  The draw index `k` is threaded
through every call in program order. -/

/-- `RiskSimulator._get_variation_range`: risk-tier table with default 0.30
(a plain dict lookup on the stored risk level). -/
def variationRange (p : Project) : ℚ :=
  if p.risk_level = "low" then 0.15
  else if p.risk_level = "medium" then 0.30
  else if p.risk_level = "high" then 0.50
  else 0.30

/-- The tier base of `RiskSimulator._get_risk_factor` (default 1.15). -/
def riskFactorBase (p : Project) : ℚ :=
  if p.risk_level = "low" then 1.05
  else if p.risk_level = "medium" then 1.15
  else if p.risk_level = "high" then 1.30
  else 1.15

/-- `random.uniform(a, b)` with oracle value `r`. -/
def uniformDraw (a b r : ℚ) : ℚ := a + (b - a) * r

/-- `RiskSimulator._simulate_single_scenario` (lines 133-174) together with
`_calculate_scenario_timeline` (lines 208-239): per task draw a cost
multiplier and a duration multiplier, accumulate the perturbed cost and
record the perturbed duration; propagate finish times over the task list
exactly as in the calculator's first loop but with the perturbed durations;
with fewer team members than tasks multiply by the jittered contention
factor; finally scale cost and timeline by the risk factor
`max(1.0, tier_base + gauss_draw)`.  Returns (cost, timeline, next draw
index). -/
def simulateSingleScenario (p : Project) (u : Nat → ℚ) (k : Nat) :
    ℚ × ℚ × Nat :=
  let vr := variationRange p
  let acc := p.tasks.foldl
    (fun (acc : ℚ × List (String × ℚ) × Nat) t =>
      let cm := uniformDraw (1 - vr * 0.5) (1 + vr) (u acc.2.2)
      let tm := uniformDraw (1 - vr * 0.3) (1 + vr * 1.2) (u (acc.2.2 + 1))
      (acc.1 + t.base_cost * cm,
       dictInsert acc.2.1 t.task_id (t.estimated_days * tm),
       acc.2.2 + 2))
    (0, [], k)
  let durs := acc.2.1
  let k1 := acc.2.2
  let fins := p.tasks.foldl
    (fun m t =>
      let es := t.dependencies.foldl
        (fun e dep =>
          match m.lookup dep with
          | some f => max e f
          | none => e) 0
      dictInsert m t.task_id (es + lookupD durs t.task_id 0))
    []
  let rawMax := match pyMax (dictValues fins) with
                | some v => v
                | none => 0
  let tl :=
    if p.team_size < (p.tasks.length : Int) then
      let cf := (1 + 0.1 * ((p.tasks.length : ℚ) / (p.team_size : ℚ) - 1)) *
        uniformDraw 0.8 1.2 (u k1)
      (rawMax * cf, k1 + 1)
    else (rawMax, k1)
  let rf := max 1 (riskFactorBase p + u tl.2)
  (acc.1 * rf, tl.1 * rf, tl.2 + 1)

/-- The `for _ in range(iterations)` loop of `run_simulation` (lines
118-125): one cost and one timeline appended per trial, draw index threaded
from trial to trial. -/
def runTrials (p : Project) (u : Nat → ℚ) : Nat → Nat → List ℚ × List ℚ
  | 0, _ => ([], [])
  | n + 1, k =>
      let r := simulateSingleScenario p u k
      let rest := runTrials p u n r.2.2
      (r.1 :: rest.1, r.2.1 :: rest.2)

/-- `RiskSimulator.__init__` line 108: `max(100, iterations)`. -/
def simIterations (iterations : Int) : Int := max 100 iterations

/-- `RiskSimulator.run_simulation`, for a simulator constructed with the
given requested iteration count. -/
def run_simulation (p : Project) (iterations : Int) (u : Nat → ℚ) :
    SimulationResult :=
  let it := simIterations iterations
  let lists := runTrials p u it.toNat 0
  { costs := lists.1, timelines := lists.2, iterations := it }

/-! ## Concrete projects used as claim inputs -/

/-- Task A, 5 days, no dependencies. -/
def tA2 : Task := mkTask "A" 5 1 [] none
def tB2 : Task := mkTask "B" 10 1 ["a"] none
def projC2 : Project :=
  { name := "P", tasks := [tB2, tA2], team_size := 2, risk_level := "low",
    description := "" }
example : simulateRCS projC2 5 = some 10 := by with_unfolding_all decide
example : specMaxFinish [tA2, tB2] = some 15 := by with_unfolding_all decide
example : topoOK [] [tA2, tB2] = true := by with_unfolding_all decide
example : List.Perm projC2.tasks [tA2, tB2] := by
  with_unfolding_all decide

def tA3 : Task := mkTask "A" 1 1 [] none
def tB3 : Task := mkTask "B" 1 1 ["ghost"] none
def projC3 : Project :=
  { name := "P", tasks := [tA3, tB3], team_size := 1, risk_level := "low",
    description := "" }
example : simulateRCS projC3 50 = none := by with_unfolding_all decide
example : simulateRCS projC3 3 = none := by with_unfolding_all decide

def tA6 : Task := mkTask "A" 5 1000 [] none
def tB6 : Task := mkTask "B" 10 1000 ["a"] none
def tC6 : Task := mkTask "C" 3 1000 ["b"] none
def chainProj : Project :=
  { name := "Chain", tasks := [tA6, tB6, tC6], team_size := 3,
    risk_level := "low", description := "" }
set_option maxRecDepth 10000 in
example : chainProj.get_critical_path 10 = some [tA6, tB6, tC6] := by
  with_unfolding_all decide
example : sumDays [tA6, tB6, tC6] = 18 := by with_unfolding_all decide
example : calculate_parallel_timeline chainProj 10 = some (99/5) := by
  with_unfolding_all decide
example : calculate_sequential_timeline chainProj = 99/5 := by
  with_unfolding_all decide

def tNeg : Task := mkTask "A" (-5) 10 [] none
def tPos : Task := mkTask "B" 3 10 [] none
def projC5 : Project :=
  { name := "P", tasks := [tNeg, tPos], team_size := 2, risk_level := "low",
    description := "" }
example : mkProject "P" [tNeg, tPos] 2 "low" "" = .ok projC5 := by
  with_unfolding_all decide
example : calculate_parallel_timeline projC5 10 = some (33/10) := by
  with_unfolding_all decide
example : calculate_sequential_timeline projC5 = -11/5 := by
  with_unfolding_all decide

def tX : Task := mkTask "X" 1 1 ["y"] none
def tY : Task := mkTask "Y" 1 1 ["x"] none
def projCyc : Project :=
  { name := "P", tasks := [tX, tY], team_size := 2, risk_level := "low",
    description := "" }
example : projCyc.has_circular_bool = true := by with_unfolding_all decide
example : projCyc.validate_dependencies = ["Project has circular dependencies"] := by
  with_unfolding_all decide
example : chainProj.has_circular_bool = false := by with_unfolding_all decide
example : chainProj.validate_dependencies = [] := by with_unfolding_all decide
example : projC3.validate_dependencies =
    ["Task " ++ qm ++ "B" ++ qm ++ " depends on non-existent task " ++ qm ++
      "ghost" ++ qm] := by with_unfolding_all decide

example : mkTask "My Test Task" 5 100 [] none
    = { name := "My Test Task", estimated_days := 5, cost_per_day := 100,
        dependencies := [], task_id := "my_test_task" } := by
  with_unfolding_all decide

example : (mkProject "P" [mkTask "T" 5 1 [] none] 0 "low" "").isOk = false := by
  with_unfolding_all decide

example : calculate_percentile [3, 1, 2] 0 = some 1 := by with_unfolding_all decide

example : calculate_percentile [3, 1, 2] 100 = some 3 := by with_unfolding_all decide

example : calculate_percentile [3, 1, 2] 50 = some 2 := by with_unfolding_all decide

/-! # Claim theorems -/

/-- C6: for the chain project A(5d) → B(10d, depends on A) → C(3d, depends on
B) with `team_size = 3 ≥ task_count = 3`, `get_critical_path` returns the
tasks `[A, B, C]` in execution order, and the sum of their durations is
18. -/
theorem c6_critical_path_chain :
    (chainProj.task_count : Int) ≤ chainProj.team_size ∧
    chainProj.get_critical_path 10 = some [tA6, tB6, tC6] ∧
    sumDays [tA6, tB6, tC6] = 18 := by
  refine ⟨by with_unfolding_all decide, ?_, by with_unfolding_all decide⟩
  set_option maxRecDepth 10000 in with_unfolding_all decide

/-- C10: every `SimulationResult` statistic is total on empty series — the
means and standard deviations of a result with empty `costs`/`timelines` are
0 (for any interpretation of the square root), and `calculate_percentile` on
an empty list returns 0 instead of raising. -/
theorem c10_empty_series_stats (sqrt : ℚ → ℚ) (it : Int) (q : ℚ) :
    (SimulationResult.mk [] [] it).cost_mean = 0 ∧
    (SimulationResult.mk [] [] it).timeline_mean = 0 ∧
    SimulationResult.cost_std sqrt (SimulationResult.mk [] [] it) = 0 ∧
    SimulationResult.timeline_std sqrt (SimulationResult.mk [] [] it) = 0 ∧
    calculate_percentile [] q = some 0 :=
  ⟨rfl, rfl, rfl, rfl, rfl⟩

theorem runTrials_length (p : Project) (u : Nat → ℚ) :
    ∀ n k, (runTrials p u n k).1.length = n ∧ (runTrials p u n k).2.length = n := by
  intro n
  induction n with
  | zero => intro k; exact ⟨rfl, rfl⟩
  | succ n ih =>
      intro k
      have h := ih (simulateSingleScenario p u k).2.2
      simp [runTrials, h.1, h.2]

/-- C8: for every project and requested iteration count, the Monte Carlo run
produces exactly `max 100 iterations` trials — a request below 100 is raised
to 100 rather than rejected — and the `costs` and `timelines` sequences are
parallel: one cost and one timeline per trial, so both have that length. -/
theorem c8_simulation_lengths (p : Project) (iterations : Int) (u : Nat → ℚ) :
    ((run_simulation p iterations u).costs.length : Int) = max 100 iterations ∧
    ((run_simulation p iterations u).timelines.length : Int) = max 100 iterations ∧
    (run_simulation p iterations u).iterations = max 100 iterations ∧
    (run_simulation p iterations u).costs.length
      = (run_simulation p iterations u).timelines.length := by
  have h := runTrials_length p u (simIterations iterations).toNat 0
  have hnn : (0 : Int) ≤ max 100 iterations :=
    le_trans (by norm_num) (le_max_left 100 iterations)
  have hcast : ((max 100 iterations).toNat : Int) = max 100 iterations :=
    Int.toNat_of_nonneg hnn
  refine ⟨?_, ?_, rfl, ?_⟩
  · show (((runTrials p u (simIterations iterations).toNat 0).1.length : Nat) : Int) = _
    rw [h.1]; exact hcast
  · show (((runTrials p u (simIterations iterations).toNat 0).2.length : Nat) : Int) = _
    rw [h.2]; exact hcast
  · show (runTrials p u (simIterations iterations).toNat 0).1.length
        = (runTrials p u (simIterations iterations).toNat 0).2.length
    rw [h.1, h.2]

/-- C1 (amended): `mkProject` fails exactly on the project-level invalid
inputs — non-positive team size, empty task list, or a risk level outside
{low, medium, high} — while task construction performs no validation at all:
a `Task` with non-positive `estimated_days` or `cost_per_day` is constructed
without error (see the counterexample). -/
theorem c1_project_construction_errors (name : String) (tasks : List Task)
    (team_size : Int) (risk_level desc : String) :
    (mkProject name tasks team_size risk_level desc).isOk = false ↔
      (team_size ≤ 0 ∨ tasks = [] ∨ ¬ strLower risk_level ∈ validRiskLevels) := by
  unfold mkProject
  split_ifs with h1 h2 h3 <;> simp_all [Except.isOk, Except.toBool]

/-- C1 (counterexample to the claim as stated): a Task with
`estimated_days = -1` and `cost_per_day = 0` is constructed without any
error, and a Project containing it is likewise constructed successfully — no
construction failure occurs for non-positive task duration/cost, and the
resulting Task violates `estimated_days > 0 ∧ cost_per_day > 0`. -/
theorem c1_task_no_validation :
    (mkProject "P" [mkTask "T" (-1) 0 [] none] 1 "low" "").map
        (fun pr => pr.tasks.map (fun t => (t.estimated_days, t.cost_per_day)))
      = .ok [((-1 : ℚ), (0 : ℚ))] ∧
    ¬ ((0 : ℚ) < -1 ∧ (0 : ℚ) < 0) := by
  constructor
  · with_unfolding_all decide
  · with_unfolding_all decide

/-- C9 (amended): when `task_id` is not supplied it is derived from the name —
lowercased, spaces replaced by underscores, truncated to 20 characters (so it
never contains a space and never exceeds 20 characters) — and a supplied id
is kept verbatim; but uniqueness of ids within a Project is not enforced
anywhere (see the counterexample). -/
theorem c9_task_id_derivation (name : String) (d c : ℚ) (deps : List String)
    (i : String) :
    (mkTask name d c deps none).task_id = deriveTaskId name ∧
    (mkTask name d c deps none).task_id.data.length ≤ 20 ∧
    (∀ ch ∈ (mkTask name d c deps none).task_id.data, ch ≠ ' ') ∧
    (mkTask name d c deps (some i)).task_id = i := by
  refine ⟨rfl, ?_, ?_, rfl⟩
  · show (((name.data.map Char.toLower).map _).take 20).length ≤ 20
    simp
  · intro ch hch
    have hch' := List.mem_of_mem_take hch
    obtain ⟨c', _, rfl⟩ := List.mem_map.mp hch'
    by_cases hsp : c' = ' '
    · simp [hsp]
    · simp [hsp]

/-- C9 (counterexample to the claim as stated): two distinct tasks both named
"A" receive the same derived `task_id` `"a"`, and the Project containing both
is constructed successfully — `task_id` values are not unique within a
Project. -/
theorem c9_duplicate_ids :
    (mkProject "P" [mkTask "A" 1 1 [] none, mkTask "A" 2 2 [] none] 1 "low" "").map
        (fun pr => pr.tasks.map Task.task_id) = .ok ["a", "a"] ∧
    ¬ (["a", "a"] : List String).Nodup := by
  constructor
  · with_unfolding_all decide
  · with_unfolding_all decide

/-! ### C3: the contention loop never terminates when a remaining task has a
dangling dependency.  For `projC3` (tasks A and B, one worker, B depending on
the nonexistent id "ghost") the loop reaches, after two iterations, the state
below, which `simStep` maps to itself: B can never start because "ghost"
never acquires a scheduled finish time, and the clock jump
`max(scheduled_finish.get(dep, 0))` resets the clock to 0 forever. -/

/-- The initial state of the contention loop for `projC3`. -/
def c3Init : SimState :=
  { remaining := [tA3, tB3], active := [], sstart := [], sfin := [], now := 0 }

/-- The state after one iteration (A started and the clock advanced to its
finish time). -/
def c3Mid : SimState :=
  { remaining := [tB3], active := [tA3], sstart := [("a", 0)],
    sfin := [("a", 1)], now := 1 }

/-- The state after two iterations (A retired, B blocked on "ghost", clock
jumped back to 0): a fixed point of `simStep`. -/
def c3Stuck : SimState :=
  { remaining := [tB3], active := [], sstart := [("a", 0)],
    sfin := [("a", 1)], now := 0 }

theorem c3_unfold (fuel : Nat) :
    simulateRCS projC3 fuel = simLoop 1 fuel c3Init := by
  with_unfolding_all rfl

theorem c3_step_init : simStep 1 c3Init = c3Mid := by with_unfolding_all decide

theorem c3_step_mid : simStep 1 c3Mid = c3Stuck := by with_unfolding_all decide

theorem c3_step_stuck : simStep 1 c3Stuck = c3Stuck := by
  with_unfolding_all decide

theorem simLoop_succ (team : Int) (n : Nat) (s : SimState) :
    simLoop team (n + 1) s =
      if s.remaining = [] ∧ s.active = [] then some (simResult s)
      else simLoop team n (simStep team s) := rfl

theorem c3_stuck_forever : ∀ n, simLoop 1 n c3Stuck = none := by
  intro n
  induction n with
  | zero => rfl
  | succ n ih =>
      rw [simLoop_succ, if_neg (by with_unfolding_all decide), c3_step_stuck]
      exact ih

/-- C3 (refuting the termination part of the claim): on the acyclic project
`projC3` — A (1 day, no dependencies) and B (1 day, depending on the
unresolved id "ghost") with one worker — the resource-constrained scheduler
never returns, at any fuel: the unresolved dependency is not treated as
satisfied in the contention path, and the loop revisits the same blocked
state forever. -/
theorem c3_dangling_dep_nontermination (fuel : Nat) :
    simulateRCS projC3 fuel = none := by
  rw [c3_unfold]
  match fuel with
  | 0 => rfl
  | 1 =>
      rw [simLoop_succ, if_neg (by with_unfolding_all decide), c3_step_init]
      rfl
  | n + 2 =>
      rw [simLoop_succ, if_neg (by with_unfolding_all decide), c3_step_init,
        simLoop_succ, if_neg (by with_unfolding_all decide), c3_step_mid]
      exact c3_stuck_forever n

/-! ### C7: percentile 0 is the minimum, percentile 100 the maximum -/

theorem foldl_min_mem : ∀ (xs : List ℚ) (x : ℚ), xs.foldl min x ∈ x :: xs := by
  intro xs
  induction xs with
  | nil => intro x; simp
  | cons a as ih =>
      intro x
      have h : (a :: as).foldl min x = as.foldl min (min x a) := rfl
      rw [h]
      rcases List.mem_cons.mp (ih (min x a)) with h1 | h2
      · rcases min_choice x a with hc | hc
        · rw [h1, hc]; exact List.mem_cons_self _ _
        · rw [h1, hc]; exact List.mem_cons_of_mem _ (List.mem_cons_self _ _)
      · exact List.mem_cons_of_mem _ (List.mem_cons_of_mem _ h2)

theorem foldl_min_le : ∀ (xs : List ℚ) (x : ℚ), ∀ y ∈ x :: xs, xs.foldl min x ≤ y := by
  intro xs
  induction xs with
  | nil =>
      intro x y hy
      rcases List.mem_cons.mp hy with rfl | h
      · exact le_refl y
      · cases h
  | cons a as ih =>
      intro x y hy
      have h : (a :: as).foldl min x = as.foldl min (min x a) := rfl
      rw [h]
      have hle : as.foldl min (min x a) ≤ min x a :=
        ih (min x a) (min x a) (List.mem_cons_self _ _)
      rcases List.mem_cons.mp hy with rfl | hy'
      · exact le_trans hle (min_le_left _ _)
      · rcases List.mem_cons.mp hy' with rfl | hy''
        · exact le_trans hle (min_le_right _ _)
        · exact ih (min x a) y (List.mem_cons_of_mem _ hy'')

theorem foldl_max_mem : ∀ (xs : List ℚ) (x : ℚ), xs.foldl max x ∈ x :: xs := by
  intro xs
  induction xs with
  | nil => intro x; simp
  | cons a as ih =>
      intro x
      have h : (a :: as).foldl max x = as.foldl max (max x a) := rfl
      rw [h]
      rcases List.mem_cons.mp (ih (max x a)) with h1 | h2
      · rcases max_choice x a with hc | hc
        · rw [h1, hc]; exact List.mem_cons_self _ _
        · rw [h1, hc]; exact List.mem_cons_of_mem _ (List.mem_cons_self _ _)
      · exact List.mem_cons_of_mem _ (List.mem_cons_of_mem _ h2)

theorem foldl_max_ge : ∀ (xs : List ℚ) (x : ℚ), ∀ y ∈ x :: xs, y ≤ xs.foldl max x := by
  intro xs
  induction xs with
  | nil =>
      intro x y hy
      rcases List.mem_cons.mp hy with rfl | h
      · exact le_refl y
      · cases h
  | cons a as ih =>
      intro x y hy
      have h : (a :: as).foldl max x = as.foldl max (max x a) := rfl
      rw [h]
      have hge : max x a ≤ as.foldl max (max x a) :=
        ih (max x a) (max x a) (List.mem_cons_self _ _)
      rcases List.mem_cons.mp hy with rfl | hy'
      · exact le_trans (le_max_left _ _) hge
      · rcases List.mem_cons.mp hy' with rfl | hy''
        · exact le_trans (le_max_right _ _) hge
        · exact ih (max x a) y (List.mem_cons_of_mem _ hy'')

/-- In a `≤`-sorted list, an element at a lower-or-equal index is `≤` the
element at a higher index. -/
theorem sorted_rel_of_le {s : List ℚ} (hs : s.Sorted (· ≤ ·))
    {i j : Fin s.length} (hij : (i : Nat) ≤ (j : Nat)) : s.get i ≤ s.get j := by
  rcases Nat.lt_or_ge (i : Nat) (j : Nat) with h | h
  · exact List.Sorted.rel_get_of_lt hs h
  · have : (i : Nat) = (j : Nat) := le_antisymm hij h
    have : i = j := Fin.ext this
    rw [this]

theorem calculate_percentile_cons (x : ℚ) (xs : List ℚ) (p : ℚ) :
    calculate_percentile (x :: xs) p =
      pyIndex ((x :: xs).insertionSort (· ≤ ·))
        (min (pyTrunc (((x :: xs).length : ℚ) * (p / 100)))
             (((x :: xs).length : Int) - 1)) := by
  with_unfolding_all rfl

theorem c7_percentile_min_max (costs timelines : List ℚ) (it : Int)
    (hne : costs ≠ []) :
    (SimulationResult.mk costs timelines it).get_cost_percentile 0
        = pyMin costs ∧
    (SimulationResult.mk costs timelines it).get_cost_percentile 100
        = pyMax costs := by
  obtain ⟨x, xs, rfl⟩ := List.exists_cons_of_ne_nil hne
  have hs : ((x :: xs).insertionSort (· ≤ ·)).Sorted (· ≤ ·) :=
    List.sorted_insertionSort _ _
  have hperm : List.Perm ((x :: xs).insertionSort (· ≤ ·)) (x :: xs) :=
    List.perm_insertionSort _ _
  have hlen : ((x :: xs).insertionSort (· ≤ ·)).length = xs.length + 1 := by
    rw [hperm.length_eq]; rfl
  have hminmem : xs.foldl min x ∈ x :: xs := foldl_min_mem xs x
  have hminle : ∀ y ∈ x :: xs, xs.foldl min x ≤ y := foldl_min_le xs x
  have hmaxmem : xs.foldl max x ∈ x :: xs := foldl_max_mem xs x
  have hmaxge : ∀ y ∈ x :: xs, y ≤ xs.foldl max x := foldl_max_ge xs x
  constructor
  · -- percentile 0 = head of the sorted list = minimum
    show calculate_percentile (x :: xs) 0 = some (xs.foldl min x)
    rw [calculate_percentile_cons]
    have harg : (((x :: xs).length : ℚ) * ((0 : ℚ) / 100)) = 0 := by norm_num
    rw [harg]
    have htr : pyTrunc 0 = 0 := by with_unfolding_all decide
    rw [htr]
    have hmin0 : min (0 : Int) (((x :: xs).length : Int) - 1) = 0 := by
      apply min_eq_left
      simp [List.length_cons]
    rw [hmin0]
    have h0lt : 0 < ((x :: xs).insertionSort (· ≤ ·)).length := by
      rw [hlen]; exact Nat.succ_pos _
    unfold pyIndex
    rw [if_pos (le_refl (0 : Int))]
    rw [List.get?_eq_get (show (0 : Int).toNat <
      ((x :: xs).insertionSort (· ≤ ·)).length from h0lt)]
    congr 1
    have hvmem : ((x :: xs).insertionSort (· ≤ ·)).get ⟨(0 : Int).toNat, h0lt⟩
        ∈ x :: xs :=
      hperm.mem_iff.mp (List.get_mem _ _ _)
    have hle1 : xs.foldl min x ≤
        ((x :: xs).insertionSort (· ≤ ·)).get ⟨(0 : Int).toNat, h0lt⟩ :=
      hminle _ hvmem
    have hge1 : ((x :: xs).insertionSort (· ≤ ·)).get ⟨(0 : Int).toNat, h0lt⟩
        ≤ xs.foldl min x := by
      have hm : xs.foldl min x ∈ (x :: xs).insertionSort (· ≤ ·) :=
        hperm.mem_iff.mpr hminmem
      obtain ⟨i, hi⟩ := List.mem_iff_get.mp hm
      rw [← hi]
      exact sorted_rel_of_le hs (Nat.zero_le _)
    exact le_antisymm hge1 hle1
  · -- percentile 100 = last element of the sorted list = maximum
    show calculate_percentile (x :: xs) 100 = some (xs.foldl max x)
    rw [calculate_percentile_cons]
    have harg : (((x :: xs).length : ℚ) * ((100 : ℚ) / 100))
        = (((x :: xs).length : Nat) : ℚ) := by norm_num
    rw [harg]
    have htr : pyTrunc (((x :: xs).length : Nat) : ℚ)
        = ((x :: xs).length : Int) := by
      unfold pyTrunc
      rw [Rat.num_natCast, Rat.den_natCast]
      simp
    rw [htr]
    have hminN : min ((x :: xs).length : Int) (((x :: xs).length : Int) - 1)
        = ((x :: xs).length : Int) - 1 := by
      apply min_eq_right
      omega
    rw [hminN]
    have hidx : (((x :: xs).length : Int) - 1) = (xs.length : Int) := by
      simp [List.length_cons]
    rw [hidx]
    have hlt : (xs.length : Int).toNat <
        ((x :: xs).insertionSort (· ≤ ·)).length := by
      rw [hlen]; simp
    unfold pyIndex
    rw [if_pos (by positivity)]
    rw [List.get?_eq_get hlt]
    congr 1
    have hvmem : ((x :: xs).insertionSort (· ≤ ·)).get
        ⟨(xs.length : Int).toNat, hlt⟩ ∈ x :: xs :=
      hperm.mem_iff.mp (List.get_mem _ _ _)
    have hle1 : ((x :: xs).insertionSort (· ≤ ·)).get
        ⟨(xs.length : Int).toNat, hlt⟩ ≤ xs.foldl max x :=
      hmaxge _ hvmem
    have hge1 : xs.foldl max x ≤ ((x :: xs).insertionSort (· ≤ ·)).get
        ⟨(xs.length : Int).toNat, hlt⟩ := by
      have hm : xs.foldl max x ∈ (x :: xs).insertionSort (· ≤ ·) :=
        hperm.mem_iff.mpr hmaxmem
      obtain ⟨i, hi⟩ := List.mem_iff_get.mp hm
      rw [← hi]
      apply sorted_rel_of_le hs
      have := i.isLt
      simp only [Int.toNat_natCast]
      omega
    exact le_antisymm hle1 hge1

/-- C7 witness: the theorem applied to the concrete series [3, 1, 2]. -/
theorem c7_percentile_min_max_witness :
    (([3, 1, 2] : List ℚ) ≠ []) ∧
    ((SimulationResult.mk [3, 1, 2] [] 100).get_cost_percentile 0
        = pyMin [3, 1, 2] ∧
     (SimulationResult.mk [3, 1, 2] [] 100).get_cost_percentile 100
        = pyMax [3, 1, 2]) :=
  ⟨by decide, c7_percentile_min_max [3, 1, 2] [] 100 (by decide)⟩

/-! ### C2: the no-contention path versus true forward propagation -/

theorem lookup_dictInsert {β : Type} (m : List (String × β)) (k x : String)
    (v : β) :
    (dictInsert m k v).lookup x = if x = k then some v else m.lookup x := by
  induction m with
  | nil =>
      show List.lookup x [(k, v)] = _
      by_cases hx : x = k
      · simp [List.lookup, hx]
      · simp [List.lookup, beq_false_of_ne hx, hx]
  | cons kv rest ih =>
      obtain ⟨k', v'⟩ := kv
      show List.lookup x
        (if k' = k then (k, v) :: rest else (k', v') :: dictInsert rest k v) = _
      by_cases hk : k' = k
      · rw [if_pos hk]
        subst hk
        by_cases hx : x = k'
        · simp [List.lookup, hx]
        · simp [List.lookup, beq_false_of_ne hx, hx]
      · rw [if_neg hk]
        by_cases hx : x = k'
        · subst hx
          have hxk : ¬ x = k := hk
          simp [List.lookup, if_neg hxk]
        · simp [List.lookup, beq_false_of_ne hx, hx, ih]

theorem dep_fold_eq (deps : List String) (fm : List (String × ℚ)) :
    ∀ acc : ℚ, (∀ d ∈ deps, (fm.lookup d).isSome = true) →
    ∃ fins, deps.mapM fm.lookup = some fins ∧
      fins.foldl max acc = deps.foldl
        (fun a dep =>
          match fm.lookup dep with
          | some f => max a f
          | none => a) acc := by
  induction deps with
  | nil => intro acc _; exact ⟨[], rfl, rfl⟩
  | cons d ds ih =>
      intro acc hall
      obtain ⟨f, hf⟩ := Option.isSome_iff_exists.mp
        (hall d (List.mem_cons_self _ _))
      obtain ⟨fs, hfs, hfold⟩ := ih (max acc f)
        (fun x hx => hall x (List.mem_cons_of_mem _ hx))
      refine ⟨f :: fs, ?_, ?_⟩
      · rw [List.mapM_cons, hf, hfs]; rfl
      · show (f :: fs).foldl max acc = _
        rw [List.foldl_cons, hfold, List.foldl_cons, hf]

theorem c2_main_aux :
    ∀ (tasks : List Task) (fm sm : List (String × ℚ)) (seen : List String),
    (∀ d : String, d ∈ seen ↔ (fm.lookup d).isSome = true) →
    topoOK seen tasks = true →
    tasks.foldlM specStep fm = some ((tasks.foldl forwardStep (sm, fm)).2) := by
  intro tasks
  induction tasks with
  | nil => intro fm sm seen _ _; rfl
  | cons t rest ih =>
      intro fm sm seen hkeys htopo
      rw [topoOK] at htopo
      simp only [Bool.and_eq_true] at htopo
      obtain ⟨hdeps, hrest⟩ := htopo
      have hdeps' : ∀ d ∈ t.dependencies, (fm.lookup d).isSome = true := by
        intro d hd
        exact (hkeys d).mp
          (List.mem_of_elem_eq_true (List.all_eq_true.mp hdeps d hd))
      obtain ⟨fins, hfins, hfold⟩ := dep_fold_eq t.dependencies fm 0 hdeps'
      have hstep : specStep fm t = some
          (dictInsert fm t.task_id
            (t.dependencies.foldl
              (fun a dep =>
                match fm.lookup dep with
                | some f => max a f
                | none => a) 0 + t.estimated_days)) := by
        unfold specStep
        rw [hfins]
        simp [hfold]
      have hkeys' : ∀ d : String,
          d ∈ seen ++ [t.task_id] ↔
          ((dictInsert fm t.task_id
            (t.dependencies.foldl
              (fun a dep =>
                match fm.lookup dep with
                | some f => max a f
                | none => a) 0 + t.estimated_days)).lookup d).isSome = true := by
        intro d
        rw [lookup_dictInsert]
        by_cases hd : d = t.task_id
        · simp [hd]
        · simp only [if_neg hd]
          rw [← hkeys d]
          simp [List.mem_append, hd]
      have := ih (dictInsert fm t.task_id
          (t.dependencies.foldl
            (fun a dep =>
              match fm.lookup dep with
              | some f => max a f
              | none => a) 0 + t.estimated_days))
        (dictInsert sm t.task_id
          (t.dependencies.foldl
            (fun a dep =>
              match fm.lookup dep with
              | some f => max a f
              | none => a) 0))
        (seen ++ [t.task_id]) hkeys' hrest
      show Option.bind (specStep fm t) (rest.foldlM specStep) = _
      rw [hstep]
      show rest.foldlM specStep _ = some ((rest.foldl forwardStep
        (forwardStep (sm, fm) t)).2)
      exact this

/-- C2 (amended): when the Project's task list is topologically ordered —
every declared dependency appears among the task ids occurring strictly
earlier in the list — and `team_size ≥ task_count`, the resource-constrained
scheduler returns exactly the maximum dependency-respecting finish time of
forward propagation (finish = max over dependencies' finish times plus own
duration, maximum over all tasks).  The claim's "regardless of the insertion
order" is dropped: the code's forward pass processes tasks in insertion
order and silently ignores dependencies on tasks that appear later in the
list (see the counterexample). -/
theorem c2_forward_propagation (p : Project) (fuel : Nat)
    (htopo : topoOK [] p.tasks = true)
    (hteam : (p.tasks.length : Int) ≤ p.team_size) :
    simulateRCS p fuel = specMaxFinish p.tasks := by
  unfold simulateRCS specMaxFinish
  rw [if_pos hteam]
  unfold specForwardMap buildStartFinish
  rw [c2_main_aux p.tasks [] [] [] (by simp) htopo]
  rfl

/-- C2 (counterexample to the claim as stated): the project whose task list
is [B (10d, depends on a), A (5d)] — acyclic, all dependencies resolving,
team_size 2 ≥ task_count 2 — gets schedule value 10 from the code, while
forward propagation over a topological order of the same two tasks gives 15:
insertion order does matter. -/
theorem c2_insertion_order_matters :
    simulateRCS projC2 5 = some 10 ∧
    specMaxFinish [tA2, tB2] = some 15 ∧
    topoOK [] [tA2, tB2] = true ∧
    List.Perm projC2.tasks [tA2, tB2] ∧
    (10 : ℚ) ≠ 15 := by
  refine ⟨?_, ?_, ?_, ?_, by norm_num⟩ <;> with_unfolding_all decide

/-- C2 witness: the amended theorem applied to the chain project. -/
theorem c2_forward_propagation_witness :
    topoOK [] chainProj.tasks = true ∧
    ((chainProj.tasks.length : Int) ≤ chainProj.team_size) ∧
    simulateRCS chainProj 0 = specMaxFinish chainProj.tasks :=
  ⟨by with_unfolding_all decide, by with_unfolding_all decide,
   c2_forward_propagation chainProj 0 (by with_unfolding_all decide)
     (by with_unfolding_all decide)⟩

/-! ### C5: sequential timeline bounds the parallel timeline.
Support lemmas: bounds on the dependency-only forward pass, an invariant for
the discrete-event loop, and a duration bound for the critical path. -/

theorem lookup_mem_values {β : Type} (m : List (String × β)) (k : String)
    (v : β) (h : m.lookup k = some v) : v ∈ dictValues m := by
  induction m with
  | nil => cases h
  | cons kv rest ih =>
      obtain ⟨k', v'⟩ := kv
      by_cases hk : k = k'
      · subst hk
        rw [show List.lookup k ((k, v') :: rest) = some v' by
          simp [List.lookup]] at h
        injection h with h
        subst h
        exact List.mem_cons_self _ _
      · rw [show List.lookup k ((k', v') :: rest) = List.lookup k rest by
          simp [List.lookup, beq_false_of_ne hk]] at h
        exact List.mem_cons_of_mem _ (ih h)

theorem values_dictInsert {β : Type} (m : List (String × β)) (k : String)
    (x v : β) (h : v ∈ dictValues (dictInsert m k x)) :
    v = x ∨ v ∈ dictValues m := by
  induction m with
  | nil => simpa [dictInsert, dictValues] using h
  | cons kv rest ih =>
      obtain ⟨k', v'⟩ := kv
      by_cases hk : k' = k
      · rw [dictInsert, if_pos hk] at h
        rcases List.mem_cons.mp h with h1 | h2
        · exact Or.inl h1
        · exact Or.inr (List.mem_cons_of_mem _ h2)
      · rw [dictInsert, if_neg hk] at h
        rcases List.mem_cons.mp h with h1 | h2
        · exact Or.inr (by rw [h1]; exact List.mem_cons_self _ _)
        · rcases ih h2 with h3 | h4
          · exact Or.inl h3
          · exact Or.inr (List.mem_cons_of_mem _ h4)

theorem sumDays_cons (t : Task) (l : List Task) :
    sumDays (t :: l) = t.estimated_days + sumDays l := by
  simp [sumDays]

theorem sumDays_nonneg (l : List Task) (h : ∀ t ∈ l, 0 ≤ t.estimated_days) :
    0 ≤ sumDays l :=
  List.sum_nonneg (by
    intro q hq
    obtain ⟨t, ht, rfl⟩ := List.mem_map.mp hq
    exact h t ht)

theorem sumDays_perm {l₁ l₂ : List Task} (h : List.Perm l₁ l₂) :
    sumDays l₁ = sumDays l₂ :=
  List.Perm.sum_eq (List.Perm.map _ h)

theorem sumDays_erase (l : List Task) (t : Task) (h : t ∈ l) :
    sumDays (l.erase t) = sumDays l - t.estimated_days := by
  induction l with
  | nil => cases h
  | cons a as ih =>
      by_cases ha : a = t
      · subst ha
        rw [List.erase_cons_head, sumDays_cons]
        ring
      · rw [List.erase_cons_tail (by simp [ha]), sumDays_cons, sumDays_cons,
          ih (List.mem_of_ne_of_mem (fun he => ha he.symm) h)]
        ring

theorem subperm_erase_of_cons {c : Task} {cs l : List Task}
    (h : List.Subperm (c :: cs) l) : List.Subperm cs (l.erase c) := by
  rw [List.subperm_ext_iff] at h ⊢
  intro x hx
  have hcount := h x (List.mem_cons_of_mem _ hx)
  by_cases hxc : x = c
  · subst hxc
    have hc : List.count x (x :: cs) = List.count x cs + 1 := by
      simp [List.count_cons]
    rw [List.count_erase_self]
    have hcl : 1 ≤ List.count x l := by
      have := h x (List.mem_cons_self _ _)
      simp [List.count_cons] at this
      omega
    omega
  · rw [List.count_erase_of_ne hxc]
    have : List.count x (c :: cs) = List.count x cs := by
      simp [List.count_cons, hxc]
    omega

theorem sumDays_sublist_le {l₁ l₂ : List Task} (h : List.Sublist l₁ l₂)
    (hnn : ∀ t ∈ l₂, 0 ≤ t.estimated_days) : sumDays l₁ ≤ sumDays l₂ := by
  induction h with
  | slnil => exact le_refl _
  | cons a h ih =>
      rw [sumDays_cons]
      have := ih (fun t ht => hnn t (List.mem_cons_of_mem _ ht))
      have ha := hnn a (List.mem_cons_self _ _)
      linarith
  | cons₂ a h ih =>
      rw [sumDays_cons, sumDays_cons]
      have := ih (fun t ht => hnn t (List.mem_cons_of_mem _ ht))
      linarith

theorem sumDays_subperm_le {l₁ l₂ : List Task} (h : List.Subperm l₁ l₂)
    (hnn : ∀ t ∈ l₂, 0 ≤ t.estimated_days) : sumDays l₁ ≤ sumDays l₂ := by
  obtain ⟨l', hperm, hsub⟩ := h
  rw [← sumDays_perm hperm]
  exact sumDays_sublist_le hsub hnn

theorem risk_multiplier_pos (r : String) : 0 < get_risk_multiplier r := by
  unfold get_risk_multiplier
  dsimp only
  split_ifs <;> norm_num

theorem dep_fold_bound (deps : List String) (fm : List (String × ℚ)) (B : ℚ)
    (hvals : ∀ v ∈ dictValues fm, v ≤ B) :
    ∀ acc : ℚ, acc ≤ B →
    deps.foldl
      (fun a dep =>
        match fm.lookup dep with
        | some f => max a f
        | none => a) acc ≤ B := by
  induction deps with
  | nil => intro acc hacc; exact hacc
  | cons d ds ih =>
      intro acc hacc
      rw [List.foldl_cons]
      cases hl : fm.lookup d with
      | none => simpa [hl] using ih acc hacc
      | some f =>
          have hf : f ≤ B := hvals f (lookup_mem_values fm d f hl)
          simpa [hl] using ih (max acc f) (max_le hacc hf)

/-- Invariant of the forward pass: every recorded finish time is bounded by
the accumulated duration budget. -/
theorem build_bound :
    ∀ (tasks : List Task) (sm fm : List (String × ℚ)) (B : ℚ),
    0 ≤ B → (∀ v ∈ dictValues fm, v ≤ B) →
    (∀ t ∈ tasks, 0 ≤ t.estimated_days) →
    ∀ v ∈ dictValues ((tasks.foldl forwardStep (sm, fm)).2),
      v ≤ B + sumDays tasks := by
  intro tasks
  induction tasks with
  | nil =>
      intro sm fm B hB hvals _ v hv
      have : sumDays ([] : List Task) = 0 := rfl
      rw [this, add_zero]
      exact hvals v hv
  | cons t rest ih =>
      intro sm fm B hB hvals hnn v hv
      have hdt : 0 ≤ t.estimated_days := hnn t (List.mem_cons_self _ _)
      have hE : t.dependencies.foldl
          (fun a dep =>
            match fm.lookup dep with
            | some f => max a f
            | none => a) 0 ≤ B := dep_fold_bound _ fm B hvals 0 hB
      have hstep : ∀ w ∈ dictValues ((forwardStep (sm, fm) t).2),
          w ≤ B + t.estimated_days := by
        intro w hw
        rcases values_dictInsert _ _ _ _ hw with h1 | h2
        · rw [h1]; linarith
        · have := hvals w h2; linarith
      have := ih (forwardStep (sm, fm) t).1 (forwardStep (sm, fm) t).2
        (B + t.estimated_days) (by linarith) hstep
        (fun u hu => hnn u (List.mem_cons_of_mem _ hu)) v
        (by
          have hfold : (rest.foldl forwardStep (forwardStep (sm, fm) t)).2
              = (rest.foldl forwardStep
                  ((forwardStep (sm, fm) t).1, (forwardStep (sm, fm) t).2)).2 := by
            rfl
          rw [List.foldl_cons] at hv
          rw [← hfold]
          exact hv)
      rw [sumDays_cons]
      linarith

/-- The fast (no-contention) path of the scheduler is bounded by the total
duration. -/
theorem simulateRCS_fast_bound (p : Project) (fuel : Nat) (r : ℚ)
    (hteam : (p.tasks.length : Int) ≤ p.team_size)
    (hnn : ∀ t ∈ p.tasks, 0 ≤ t.estimated_days)
    (h : simulateRCS p fuel = some r) : r ≤ sumDays p.tasks := by
  unfold simulateRCS at h
  rw [if_pos hteam] at h
  injection h with h
  subst h
  have hD : 0 ≤ sumDays p.tasks := sumDays_nonneg _ hnn
  have hvals : ∀ v ∈ dictValues ((p.tasks.foldl forwardStep ([], [])).2),
      v ≤ 0 + sumDays p.tasks :=
    build_bound p.tasks [] [] 0 (le_refl 0) (by intro v hv; cases hv) hnn
  cases hvm : dictValues ((buildStartFinish p.tasks).2) with
  | nil => simpa [pyMax, hvm] using hD
  | cons x xs =>
      have hmem : xs.foldl max x ∈ x :: xs := foldl_max_mem xs x
      have hb : xs.foldl max x ≤ 0 + sumDays p.tasks := by
        apply hvals
        show xs.foldl max x ∈ dictValues ((p.tasks.foldl forwardStep ([], [])).2)
        have : dictValues ((p.tasks.foldl forwardStep ([], [])).2) = x :: xs := hvm
        rw [this]
        exact hmem
      simpa [pyMax, hvm] using hb

/-- The invariant of the discrete-event loop: the clock and every recorded
finish time are nonnegative and at most the duration budget `D` minus the
total duration still waiting to be scheduled; remaining durations are
nonnegative. -/
def SimInv (D : ℚ) (s : SimState) : Prop :=
  0 ≤ s.now ∧
  s.now + sumDays s.remaining ≤ D ∧
  (∀ v ∈ dictValues s.sfin, 0 ≤ v ∧ v + sumDays s.remaining ≤ D) ∧
  (∀ t ∈ s.remaining, 0 ≤ t.estimated_days)

theorem startTask_inv {D : ℚ} {st : SimState} {t : Task}
    (ht : t ∈ st.remaining) (h : SimInv D st) : SimInv D (startTask st t) := by
  obtain ⟨h0, h1, h2, h3⟩ := h
  have hd : 0 ≤ t.estimated_days := h3 t ht
  have herase : sumDays (st.remaining.erase t)
      = sumDays st.remaining - t.estimated_days := sumDays_erase _ _ ht
  refine ⟨h0, ?_, ?_, ?_⟩
  · show st.now + sumDays (st.remaining.erase t) ≤ D
    rw [herase]; linarith
  · intro v hv
    rcases values_dictInsert _ _ _ _ hv with h4 | h5
    · constructor
      · rw [h4]; linarith
      · show v + sumDays (st.remaining.erase t) ≤ D
        rw [h4, herase]; linarith
    · obtain ⟨hva, hvb⟩ := h2 v h5
      refine ⟨hva, ?_⟩
      show v + sumDays (st.remaining.erase t) ≤ D
      rw [herase]; linarith
  · intro u hu
    exact h3 u (List.erase_subset _ _ hu)

theorem foldl_startTask_inv {D : ℚ} :
    ∀ (cs : List Task) (st : SimState), List.Subperm cs st.remaining →
    SimInv D st → SimInv D (cs.foldl startTask st) := by
  intro cs
  induction cs with
  | nil => intro st _ h; exact h
  | cons c cs' ih =>
      intro st hsub h
      have hc : c ∈ st.remaining := hsub.subset (List.mem_cons_self _ _)
      have h' : SimInv D (startTask st c) := startTask_inv hc h
      have hsub' : List.Subperm cs' (startTask st c).remaining :=
        subperm_erase_of_cons hsub
      exact ih (startTask st c) hsub' h'

theorem foldl_startTask_now :
    ∀ (cs : List Task) (st : SimState), (cs.foldl startTask st).now = st.now := by
  intro cs
  induction cs with
  | nil => intro st; rfl
  | cons c cs' ih => intro st; rw [List.foldl_cons, ih]; rfl

theorem foldl_startTask_active :
    ∀ (cs : List Task) (st : SimState),
    (cs.foldl startTask st).active = st.active ++ cs := by
  intro cs
  induction cs with
  | nil => intro st; simp
  | cons c cs' ih =>
      intro st
      rw [List.foldl_cons, ih]
      show st.active ++ [c] ++ cs' = st.active ++ c :: cs'
      simp

theorem foldl_startTask_rem_subset :
    ∀ (cs : List Task) (st : SimState),
    (cs.foldl startTask st).remaining ⊆ st.remaining := by
  intro cs
  induction cs with
  | nil => intro st x hx; exact hx
  | cons c cs' ih =>
      intro st x hx
      have := ih (startTask st c) hx
      exact List.erase_subset _ _ this

/-- Each admission-branch clock candidate (`scheduled_finish` value or the
0 default) satisfies the invariant bounds. -/
theorem lookupD_cand {D R : ℚ} {m : List (String × ℚ)} {k : String}
    (hvals : ∀ v ∈ dictValues m, 0 ≤ v ∧ v + R ≤ D) (hR : 0 + R ≤ D) :
    0 ≤ lookupD m k 0 ∧ lookupD m k 0 + R ≤ D := by
  unfold lookupD
  cases hl : m.lookup k with
  | none => exact ⟨le_refl 0, hR⟩
  | some v => exact hvals v (lookup_mem_values m k v hl)

theorem retireAdmit_now (team : Int) (s : SimState) :
    (retireAdmit team s).now = s.now :=
  foldl_startTask_now _ _

theorem retireAdmit_active (team : Int) (s : SimState) :
    (retireAdmit team s).active = retireList s ++ canStartList team s :=
  foldl_startTask_active _ _

theorem retireAdmit_rem_subset (team : Int) (s : SimState) :
    (retireAdmit team s).remaining ⊆ s.remaining :=
  foldl_startTask_rem_subset _ _

theorem retireAdmit_inv {team : Int} {D : ℚ} {s : SimState}
    (h : SimInv D s) : SimInv D (retireAdmit team s) := by
  have hsub : List.Subperm (canStartList team s)
      ({ s with active := retireList s } : SimState).remaining :=
    (List.filter_sublist _).subperm
  exact foldl_startTask_inv _ _ hsub h

theorem simStep_inv {team : Int} {D : ℚ} {s : SimState} (hteam : 0 < team)
    (h : SimInv D s) : SimInv D (simStep team s) := by
  have hmid : SimInv D (retireAdmit team s) := retireAdmit_inv h
  obtain ⟨h0, h1, h2, h3⟩ := hmid
  have hRnn : 0 ≤ sumDays (retireAdmit team s).remaining := sumDays_nonneg _ h3
  have hR : 0 + sumDays (retireAdmit team s).remaining ≤ D := by linarith
  have hcand : ∀ k : String,
      0 ≤ lookupD (retireAdmit team s).sfin k 0 ∧
      lookupD (retireAdmit team s).sfin k 0
        + sumDays (retireAdmit team s).remaining ≤ D :=
    fun k => lookupD_cand h2 hR
  unfold simStep advance
  by_cases hact : (retireAdmit team s).active ≠ []
  · rw [if_pos hact]
    cases hal : (retireAdmit team s).active with
    | nil => exact absurd hal hact
    | cons a as =>
        have hmem : (as.map (fun t => lookupD (retireAdmit team s).sfin t.task_id 0)).foldl
            min (lookupD (retireAdmit team s).sfin a.task_id 0)
            ∈ lookupD (retireAdmit team s).sfin a.task_id 0 ::
              as.map (fun t => lookupD (retireAdmit team s).sfin t.task_id 0) :=
          foldl_min_mem _ _
        have hm : ∃ t : Task, (as.map (fun t => lookupD (retireAdmit team s).sfin t.task_id 0)).foldl
            min (lookupD (retireAdmit team s).sfin a.task_id 0)
            = lookupD (retireAdmit team s).sfin t.task_id 0 := by
          rcases List.mem_cons.mp hmem with h4 | h5
          · exact ⟨a, h4⟩
          · obtain ⟨t, _, ht⟩ := List.mem_map.mp h5
            exact ⟨t, ht.symm⟩
        obtain ⟨t, ht⟩ := hm
        show SimInv D _
        refine ⟨?_, ?_, h2, h3⟩
        · show (0 : ℚ) ≤ (as.map _).foldl min _
          rw [ht]; exact (hcand t.task_id).1
        · show (as.map _).foldl min _ + sumDays (retireAdmit team s).remaining ≤ D
          rw [ht]; exact (hcand t.task_id).2
  · rw [if_neg hact]
    have hact' : (retireAdmit team s).active = [] := not_not.mp hact
    cases hrem : (retireAdmit team s).remaining with
    | nil => exact ⟨h0, h1, h2, h3⟩
    | cons t rest =>
        dsimp only
        by_cases hdeps : t.dependencies ≠ []
        · rw [if_pos hdeps]
          cases hdl : t.dependencies with
          | nil => exact absurd hdl hdeps
          | cons d ds =>
              have hmem : (ds.map (fun dep => lookupD (retireAdmit team s).sfin dep 0)).foldl
                  max (lookupD (retireAdmit team s).sfin d 0)
                  ∈ lookupD (retireAdmit team s).sfin d 0 ::
                    ds.map (fun dep => lookupD (retireAdmit team s).sfin dep 0) :=
                foldl_max_mem _ _
              have hm : ∃ k : String, (ds.map (fun dep => lookupD (retireAdmit team s).sfin dep 0)).foldl
                  max (lookupD (retireAdmit team s).sfin d 0)
                  = lookupD (retireAdmit team s).sfin k 0 := by
                rcases List.mem_cons.mp hmem with h4 | h5
                · exact ⟨d, h4⟩
                · obtain ⟨k, _, hk⟩ := List.mem_map.mp h5
                  exact ⟨k, hk.symm⟩
              obtain ⟨k, hk⟩ := hm
              have h2' : ∀ v ∈ dictValues (retireAdmit team s).sfin,
                  0 ≤ v ∧ v + sumDays (t :: rest) ≤ D := by
                rw [← hrem]; exact h2
              have h3' : ∀ u ∈ t :: rest, 0 ≤ u.estimated_days := by
                rw [← hrem]; exact h3
              have hcand' : 0 ≤ lookupD (retireAdmit team s).sfin k 0 ∧
                  lookupD (retireAdmit team s).sfin k 0 + sumDays (t :: rest) ≤ D := by
                rw [← hrem]; exact hcand k
              refine ⟨?_, ?_, h2', h3'⟩
              · show (0 : ℚ) ≤ (ds.map _).foldl max _
                rw [hk]; exact hcand'.1
              · show (ds.map _).foldl max _ + sumDays (t :: rest) ≤ D
                rw [hk]; exact hcand'.2
        · exfalso
          have hsplit := retireAdmit_active team s
          rw [hact'] at hsplit
          have hcs : canStartList team s = [] :=
            (List.append_eq_nil.mp hsplit.symm).2
          have hret : retireList s = [] :=
            (List.append_eq_nil.mp hsplit.symm).1
          have htmem : t ∈ s.remaining := by
            apply retireAdmit_rem_subset team s
            rw [hrem]
            exact List.mem_cons_self _ _
          have hdeps' : t.dependencies = [] := not_not.mp hdeps
          have hpred : (decide (depsComplete s.sfin s.now t) &&
              decide (((retireList s).length : Int) < team)) = true := by
            rw [Bool.and_eq_true]
            constructor
            · apply decide_eq_true
              intro dep hdep
              rw [hdeps'] at hdep
              cases hdep
            · apply decide_eq_true
              rw [hret]
              simpa using hteam
          have hin : t ∈ canStartList team s :=
            List.mem_filter.mpr ⟨htmem, hpred⟩
          rw [hcs] at hin
          cases hin

theorem simLoop_bound {team : Int} {D : ℚ} (hteam : 0 < team) :
    ∀ (fuel : Nat) (s : SimState) (r : ℚ), SimInv D s →
    simLoop team fuel s = some r → r ≤ D := by
  intro fuel
  induction fuel with
  | zero => intro s r _ h; cases h
  | succ n ih =>
      intro s r hInv h
      rw [simLoop_succ] at h
      by_cases hexit : s.remaining = [] ∧ s.active = []
      · rw [if_pos hexit] at h
        injection h with h
        subst h
        obtain ⟨h0, h1, h2, h3⟩ := hInv
        rw [hexit.1] at h2
        have hD : 0 ≤ D := by
          rw [hexit.1] at h1
          have : sumDays ([] : List Task) = 0 := rfl
          rw [this] at h1
          linarith
        unfold simResult
        cases hv : dictValues s.sfin with
        | nil => simpa [pyMax, hv] using hD
        | cons x xs =>
            have hmem : xs.foldl max x ∈ dictValues s.sfin := by
              rw [hv]; exact foldl_max_mem xs x
            have := (h2 _ hmem).2
            have hz : sumDays ([] : List Task) = 0 := rfl
            rw [hz] at this
            simpa [pyMax, hv] using by linarith
      · rw [if_neg hexit] at h
        exact ih (simStep team s) r (simStep_inv hteam hInv) h

theorem simulateRCS_bound (p : Project) (fuel : Nat) (r : ℚ)
    (hteam : 0 < p.team_size)
    (hnn : ∀ t ∈ p.tasks, 0 ≤ t.estimated_days)
    (h : simulateRCS p fuel = some r) : r ≤ sumDays p.tasks := by
  by_cases hfast : (p.tasks.length : Int) ≤ p.team_size
  · exact simulateRCS_fast_bound p fuel r hfast hnn h
  · unfold simulateRCS at h
    rw [if_neg hfast] at h
    have hperm : List.Perm
        (p.tasks.insertionSort (schedOrder (buildStartFinish p.tasks).1))
        p.tasks :=
      List.perm_insertionSort _ _
    apply simLoop_bound hteam fuel _ r _ h
    refine ⟨le_refl 0, ?_, ?_, ?_⟩
    · show (0 : ℚ) + sumDays (p.tasks.insertionSort
        (schedOrder (buildStartFinish p.tasks).1)) ≤ sumDays p.tasks
      rw [sumDays_perm hperm]
      linarith
    · intro v hv
      cases hv
    · intro t ht
      exact hnn t (hperm.mem_iff.mp ht)

theorem get_task_by_id_mem {p : Project} {i : String} {t : Task}
    (h : p.get_task_by_id i = some t) : t ∈ p.tasks ∧ t.task_id = i := by
  unfold Project.get_task_by_id at h
  have h2 := List.find?_some h
  exact ⟨List.mem_of_find?_eq_some h, of_decide_eq_true h2⟩

theorem findPred_some {p : Project} {earliest : List (String × ℚ)}
    {target : ℚ} :
    ∀ (deps : List String) (d : String),
    findPred p earliest target deps = some (some d) →
    ∃ e dt, earliest.lookup d = some e ∧ p.get_task_by_id d = some dt ∧
      e + dt.estimated_days = target := by
  intro deps
  induction deps with
  | nil => intro d h; simp [findPred] at h
  | cons x rest ih =>
      intro d h
      unfold findPred at h
      cases hl : earliest.lookup x with
      | none => rw [hl] at h; cases h
      | some e =>
          rw [hl] at h
          dsimp only at h
          cases hg : p.get_task_by_id x with
          | none => rw [hg] at h; cases h
          | some dt =>
              rw [hg] at h
              dsimp only at h
              by_cases heq : e + dt.estimated_days = target
              · rw [if_pos heq] at h
                injection h with h
                injection h with h
                subst h
                exact ⟨e, dt, hl, hg, heq⟩
              · rw [if_neg heq] at h
                exact ih d h

theorem backtrack_props {p : Project} {earliest : List (String × ℚ)}
    (hpos : ∀ t ∈ p.tasks, 0 < t.estimated_days) :
    ∀ (fuel : Nat) (cur : String) (acc path : List Task),
    (∀ a ∈ acc, p.get_task_by_id a.task_id = some a) →
    (∀ a ∈ acc, lookupD earliest cur 0 < lookupD earliest a.task_id 0) →
    (acc.map Task.task_id).Nodup →
    backtrack p earliest fuel cur acc = some path →
    (path.map Task.task_id).Nodup ∧
      ∀ a ∈ path, p.get_task_by_id a.task_id = some a := by
  intro fuel
  induction fuel with
  | zero => intro cur acc path _ _ _ h; cases h
  | succ n ih =>
      intro cur acc path hres hord hnd h
      unfold backtrack at h
      cases hg : p.get_task_by_id cur with
      | none => rw [hg] at h; cases h
      | some t =>
          rw [hg] at h
          dsimp only at h
          obtain ⟨htmem, htid⟩ := get_task_by_id_mem hg
          have hres' : ∀ a ∈ t :: acc, p.get_task_by_id a.task_id = some a := by
            intro a ha
            rcases List.mem_cons.mp ha with rfl | ha'
            · rw [htid]; exact hg
            · exact hres a ha'
          have hnd' : ((t :: acc).map Task.task_id).Nodup := by
            show (t.task_id :: acc.map Task.task_id).Nodup
            refine List.Nodup.cons ?_ hnd
            intro hmem'
            obtain ⟨a, ha, haid⟩ := List.mem_map.mp hmem'
            have hgt := hord a ha
            rw [haid, htid] at hgt
            exact lt_irrefl _ hgt
          by_cases hdep0 : t.dependencies = []
          · rw [if_pos hdep0] at h
            injection h with h
            subst h
            exact ⟨hnd', hres'⟩
          · rw [if_neg hdep0] at h
            cases hf : findPred p earliest (lookupD earliest t.task_id 0)
                t.dependencies with
            | none => rw [hf] at h; cases h
            | some o =>
                rw [hf] at h
                cases o with
                | none =>
                    dsimp only at h
                    injection h with h
                    subst h
                    exact ⟨hnd', hres'⟩
                | some d =>
                    dsimp only at h
                    by_cases hde : d = ""
                    · rw [if_pos hde] at h
                      injection h with h
                      subst h
                      exact ⟨hnd', hres'⟩
                    · rw [if_neg hde] at h
                      obtain ⟨e, dt, hle, hgd, hsum⟩ :=
                        findPred_some t.dependencies d hf
                      have hdtpos : 0 < dt.estimated_days :=
                        hpos dt (get_task_by_id_mem hgd).1
                      have heval : lookupD earliest d 0 = e := by
                        unfold lookupD
                        rw [hle]
                      have hcureq : lookupD earliest t.task_id 0
                          = lookupD earliest cur 0 := by rw [htid]
                      have hlt : lookupD earliest d 0
                          < lookupD earliest cur 0 := by
                        rw [heval, ← hcureq]
                        linarith
                      have hord' : ∀ a ∈ t :: acc,
                          lookupD earliest d 0
                            < lookupD earliest a.task_id 0 := by
                        intro a ha
                        rcases List.mem_cons.mp ha with rfl | ha'
                        · rw [htid]; exact hlt
                        · exact lt_trans hlt (hord a ha')
                      exact ih d (t :: acc) path hres' hord' hnd' h

theorem nodup_resolving_sum_le {p : Project} (l : List Task)
    (hnd : (l.map Task.task_id).Nodup)
    (hres : ∀ a ∈ l, p.get_task_by_id a.task_id = some a)
    (hnn : ∀ t ∈ p.tasks, 0 ≤ t.estimated_days) :
    sumDays l ≤ sumDays p.tasks := by
  have hlnd : l.Nodup := List.Nodup.of_map _ hnd
  have hsubset : l ⊆ p.tasks := fun a ha => (get_task_by_id_mem (hres a ha)).1
  exact sumDays_subperm_le (List.subperm_of_subset hlnd hsubset) hnn

theorem cp_bound (p : Project) (fuel : Nat) (path : List Task)
    (hpos : ∀ t ∈ p.tasks, 0 < t.estimated_days)
    (h : p.get_critical_path fuel = some path) :
    sumDays path ≤ sumDays p.tasks := by
  have hnn : ∀ t ∈ p.tasks, 0 ≤ t.estimated_days :=
    fun t ht => le_of_lt (hpos t ht)
  unfold Project.get_critical_path at h
  cases hk : kahnEarliest p fuel with
  | none => rw [hk] at h; cases h
  | some earliest =>
      rw [hk] at h
      dsimp only at h
      cases he : endTaskId p earliest with
      | none => rw [he] at h; cases h
      | some endId =>
          rw [he] at h
          dsimp only at h
          by_cases hempty : endId = ""
          · rw [if_pos hempty] at h
            injection h with h
            subst h
            show sumDays [] ≤ sumDays p.tasks
            have h0 : sumDays ([] : List Task) = 0 := rfl
            rw [h0]
            exact sumDays_nonneg _ hnn
          · rw [if_neg hempty] at h
            obtain ⟨hnd, hres⟩ := backtrack_props hpos fuel endId [] path
              (by intro a ha; cases ha) (by intro a ha; cases ha)
              List.nodup_nil h
            exact nodup_resolving_sum_le path hnd hres hnn

/-- C5 (amended): for every validly constructed Project (`team_size ≥ 1`)
whose tasks all have positive durations — the invariant the specification
asserts but construction does not enforce — every value the parallel
timeline computes is at most the sequential timeline. -/
theorem c5_sequential_ge_parallel (p : Project) (fuel : Nat) (v : ℚ)
    (hteam : 0 < p.team_size)
    (hpos : ∀ t ∈ p.tasks, 0 < t.estimated_days)
    (hpar : calculate_parallel_timeline p fuel = some v) :
    v ≤ calculate_sequential_timeline p := by
  have hnn : ∀ t ∈ p.tasks, 0 ≤ t.estimated_days :=
    fun t ht => le_of_lt (hpos t ht)
  have hmpos : 0 < get_risk_multiplier p.risk_level := risk_multiplier_pos _
  have hseq : calculate_sequential_timeline p
      = sumDays p.tasks * get_risk_multiplier p.risk_level := rfl
  unfold calculate_parallel_timeline at hpar
  by_cases hempty : p.tasks = []
  · rw [if_pos hempty] at hpar
    injection hpar with hpar
    subst hpar
    rw [hseq, hempty]
    show (0 : ℚ) ≤ sumDays [] * get_risk_multiplier p.risk_level
    have h0 : sumDays ([] : List Task) = 0 := rfl
    rw [h0, zero_mul]
  · rw [if_neg hempty] at hpar
    cases hcp : p.get_critical_path fuel with
    | none => rw [hcp] at hpar; cases hpar
    | some cp =>
        rw [hcp] at hpar
        dsimp only at hpar
        cases hsim : simulateRCS p fuel with
        | none => rw [hsim] at hpar; cases hpar
        | some t =>
            rw [hsim] at hpar
            dsimp only at hpar
            injection hpar with hpar
            subst hpar
            have h1 : t ≤ sumDays p.tasks :=
              simulateRCS_bound p fuel t hteam hnn hsim
            have h2 : sumDays cp ≤ sumDays p.tasks :=
              cp_bound p fuel cp hpos hcp
            rw [hseq]
            apply max_le
            · exact mul_le_mul_of_nonneg_right h1 (le_of_lt hmpos)
            · exact mul_le_mul_of_nonneg_right h2 (le_of_lt hmpos)

/-- C5 (counterexample to the claim as stated): the claim quantifies over
every Project, but construction does not enforce positive durations (see C1),
and for the constructible project with tasks A (-5 days) and B (3 days), two
workers, low risk, the sequential timeline is -11/5 while the parallel
timeline is 33/10 — `sequentialTimeline ≥ parallelTimeline` fails. -/
theorem c5_negative_duration_breaks :
    mkProject "P" [tNeg, tPos] 2 "low" "" = .ok projC5 ∧
    calculate_parallel_timeline projC5 10 = some (33/10) ∧
    calculate_sequential_timeline projC5 = -11/5 ∧
    ¬ ((33/10 : ℚ) ≤ calculate_sequential_timeline projC5) := by
  refine ⟨?_, ?_, ?_, ?_⟩ <;> with_unfolding_all decide

/-- C5 witness: the amended theorem applied to the chain project. -/
theorem c5_sequential_ge_parallel_witness :
    (0 < chainProj.team_size) ∧
    (∀ t ∈ chainProj.tasks, 0 < t.estimated_days) ∧
    calculate_parallel_timeline chainProj 10 = some (99/5) ∧
    (99/5 : ℚ) ≤ calculate_sequential_timeline chainProj :=
  ⟨by with_unfolding_all decide, by with_unfolding_all decide,
   by set_option maxRecDepth 10000 in with_unfolding_all decide,
   c5_sequential_ge_parallel chainProj 10 (99/5)
     (by with_unfolding_all decide) (by with_unfolding_all decide)
     (by set_option maxRecDepth 10000 in with_unfolding_all decide)⟩

/-! ### C4: `validate_dependencies` — missing-reference errors plus a
circular error exactly when the dependency graph has a cycle.

The dependency graph of the specification: nodes are the task ids, with an
edge from a task's id to each of its declared dependencies (the direction the
traversal follows).  A cycle is a nonempty edge path from some node to
itself, i.e. `Relation.TransGen`. -/

/-- The edge a → b of the traversal: b is among the dependency list the
adjacency map records for a. -/
def edgeG (g : List (String × List String)) (a b : String) : Prop :=
  b ∈ adj g a

/-- The specification's dependency edge: some task with id `a` declares the
dependency `b`. -/
def depEdge (p : Project) (a b : String) : Prop :=
  ∃ t ∈ p.tasks, t.task_id = a ∧ b ∈ t.dependencies

theorem graph_lookup_of_not_mem :
    ∀ (tasks : List Task) (m : List (String × List String)) (a : String),
    (∀ t ∈ tasks, t.task_id ≠ a) →
    (tasks.foldl (fun acc t => dictInsert acc t.task_id t.dependencies) m).lookup a
      = m.lookup a := by
  intro tasks
  induction tasks with
  | nil => intro m a _; rfl
  | cons t rest ih =>
      intro m a hne
      rw [List.foldl_cons, ih _ _ (fun u hu => hne u (List.mem_cons_of_mem _ hu)),
        lookup_dictInsert]
      rw [if_neg (fun h => hne t (List.mem_cons_self _ _) h.symm)]

theorem graph_lookup_of_nodup_mem :
    ∀ (tasks : List Task) (m : List (String × List String)) (t : Task),
    (tasks.map Task.task_id).Nodup → t ∈ tasks →
    (tasks.foldl (fun acc t => dictInsert acc t.task_id t.dependencies) m).lookup t.task_id
      = some t.dependencies := by
  intro tasks
  induction tasks with
  | nil => intro m t _ ht; cases ht
  | cons u rest ih =>
      intro m t hnd ht
      have hnd' : (rest.map Task.task_id).Nodup := (List.nodup_cons.mp hnd).2
      have hu_not : u.task_id ∉ rest.map Task.task_id := (List.nodup_cons.mp hnd).1
      rcases List.mem_cons.mp ht with rfl | ht'
      · rw [List.foldl_cons]
        rw [graph_lookup_of_not_mem rest _ t.task_id
          (fun v hv hvid => hu_not (hvid ▸ List.mem_map_of_mem Task.task_id hv))]
        rw [lookup_dictInsert, if_pos rfl]
      · rw [List.foldl_cons]
        exact ih _ t hnd' ht'

theorem graph_lookup_some :
    ∀ (tasks : List Task) (m : List (String × List String)) (a : String)
    (l : List String),
    (tasks.foldl (fun acc t => dictInsert acc t.task_id t.dependencies) m).lookup a
      = some l →
    (∃ t ∈ tasks, t.task_id = a ∧ l = t.dependencies) ∨ m.lookup a = some l := by
  intro tasks
  induction tasks with
  | nil => intro m a l h; exact Or.inr h
  | cons u rest ih =>
      intro m a l h
      rw [List.foldl_cons] at h
      rcases ih _ a l h with h1 | h2
      · obtain ⟨t, ht, hta, htl⟩ := h1
        exact Or.inl ⟨t, List.mem_cons_of_mem _ ht, hta, htl⟩
      · rw [lookup_dictInsert] at h2
        by_cases ha : a = u.task_id
        · rw [if_pos ha] at h2
          injection h2 with h2
          exact Or.inl ⟨u, List.mem_cons_self _ _, ha.symm, h2.symm⟩
        · rw [if_neg ha] at h2
          exact Or.inr h2

/-- A node with outgoing edges in the built adjacency map is a task id. -/
theorem edgeG_graphOf_key {p : Project} {a b : String}
    (h : edgeG (graphOf p) a b) : ∃ t ∈ p.tasks, t.task_id = a := by
  unfold edgeG adj at h
  cases hl : (graphOf p).lookup a with
  | none => rw [hl] at h; cases h
  | some l =>
      rcases graph_lookup_some p.tasks [] a l hl with h1 | h2
      · obtain ⟨t, ht, hta, _⟩ := h1
        exact ⟨t, ht, hta⟩
      · cases h2

/-- Under unique task ids the traversal's adjacency coincides with the
specification's dependency edges. -/
theorem edgeG_iff_depEdge {p : Project}
    (hnd : (p.tasks.map Task.task_id).Nodup) (a b : String) :
    edgeG (graphOf p) a b ↔ depEdge p a b := by
  constructor
  · intro h
    obtain ⟨t, ht, hta⟩ := edgeG_graphOf_key h
    have hl : (graphOf p).lookup a = some t.dependencies := by
      rw [← hta]
      exact graph_lookup_of_nodup_mem p.tasks [] t hnd ht
    unfold edgeG adj at h
    rw [hl] at h
    exact ⟨t, ht, hta, h⟩
  · intro ⟨t, ht, hta, hb⟩
    have hl : (graphOf p).lookup a = some t.dependencies := by
      rw [← hta]
      exact graph_lookup_of_nodup_mem p.tasks [] t hnd ht
    unfold edgeG adj
    rw [hl]
    exact hb

theorem transGen_exists_congr {r s : String → String → Prop}
    (h : ∀ a b, r a b ↔ s a b) :
    (∃ n, Relation.TransGen r n n) ↔ ∃ n, Relation.TransGen s n n := by
  constructor
  · intro ⟨n, hn⟩
    exact ⟨n, Relation.TransGen.mono (fun a b => (h a b).mp) hn⟩
  · intro ⟨n, hn⟩
    exact ⟨n, Relation.TransGen.mono (fun a b => (h a b).mpr) hn⟩

/-! Unfolding equations for the traversal. -/

theorem dfsGo_zero (g : List (String × List String)) (done path : List String)
    (m : String ⊕ (String × List String)) : dfsGo g 0 done path m = none := rfl

theorem dfsGo_inl (g : List (String × List String)) (fuel : Nat)
    (done path : List String) (node : String) :
    dfsGo g (fuel + 1) done path (.inl node) =
      match dfsGo g fuel done (node :: path) (.inr (node, adj g node)) with
      | none => none
      | some (true, d) => some (true, d)
      | some (false, d) => some (false, node :: d) := rfl

theorem dfsGo_inr_nil (g : List (String × List String)) (fuel : Nat)
    (done path : List String) (node : String) :
    dfsGo g (fuel + 1) done path (.inr (node, [])) = some (false, done) := rfl

theorem dfsGo_inr_cons (g : List (String × List String)) (fuel : Nat)
    (done path : List String) (node nb : String) (rest : List String) :
    dfsGo g (fuel + 1) done path (.inr (node, nb :: rest)) =
      if nb ∈ done ∨ nb ∈ path then
        if nb ∈ path then some (true, done)
        else dfsGo g fuel done path (.inr (node, rest))
      else
        match dfsGo g fuel done path (.inl nb) with
        | none => none
        | some (true, d) => some (true, d)
        | some (false, d) => dfsGo g fuel d path (.inr (node, rest)) := rfl

theorem dfsRoot_nil (g : List (String × List String)) (fuel : Nat)
    (done : List String) : dfsRoot g fuel done [] = some false := rfl

theorem dfsRoot_cons (g : List (String × List String)) (fuel : Nat)
    (done : List String) (t : Task) (rest : List Task) :
    dfsRoot g fuel done (t :: rest) =
      if t.task_id ∈ done then dfsRoot g fuel done rest
      else
        match dfsGo g fuel done [] (.inl t.task_id) with
        | none => none
        | some (true, _) => some true
        | some (false, d) => dfsRoot g fuel d rest := rfl

/-- Walking down the recursion path: any node on the path reaches the head
of the path along graph edges. -/
theorem chain_reach (g : List (String × List String)) :
    ∀ (pt : List String) (h nb : String),
    List.Chain' (fun a b => a ∈ adj g b) (h :: pt) → nb ∈ h :: pt →
    Relation.ReflTransGen (edgeG g) nb h := by
  intro pt
  induction pt with
  | nil =>
      intro h nb _ hmem
      rcases List.mem_cons.mp hmem with rfl | hmem'
      · exact Relation.ReflTransGen.refl
      · cases hmem'
  | cons h2 pt' ih =>
      intro h nb hchain hmem
      have hch := List.chain'_cons.mp hchain
      rcases List.mem_cons.mp hmem with rfl | hmem'
      · exact Relation.ReflTransGen.refl
      · exact (ih h2 nb hch.2 hmem').tail hch.1

/-- Soundness of the traversal: a `true` result means the graph has a cycle.
The recursion path is an edge chain (each entry is adjacent from its
predecessor), so a neighbor already on the path closes a cycle. -/
theorem dfsGo_sound (g : List (String × List String)) : ∀ fuel : Nat,
    (∀ (done path : List String) (node : String) (d' : List String),
      List.Chain' (fun a b => a ∈ adj g b) (node :: path) →
      dfsGo g fuel done path (.inl node) = some (true, d') →
      ∃ n, Relation.TransGen (edgeG g) n n) ∧
    (∀ (done pt : List String) (node : String) (nbs : List String)
      (d' : List String),
      List.Chain' (fun a b => a ∈ adj g b) (node :: pt) →
      (∀ x ∈ nbs, x ∈ adj g node) →
      dfsGo g fuel done (node :: pt) (.inr (node, nbs)) = some (true, d') →
      ∃ n, Relation.TransGen (edgeG g) n n) := by
  intro fuel
  induction fuel with
  | zero =>
      refine ⟨?_, ?_⟩
      · intro done path node d' _ h
        rw [dfsGo_zero] at h
        cases h
      · intro done pt node nbs d' _ _ h
        rw [dfsGo_zero] at h
        cases h
  | succ n ih =>
      obtain ⟨ihNode, ihNbs⟩ := ih
      refine ⟨?_, ?_⟩
      · intro done path node d' hchain h
        rw [dfsGo_inl] at h
        cases hin : dfsGo g n done (node :: path) (.inr (node, adj g node)) with
        | none => rw [hin] at h; cases h
        | some bd =>
            obtain ⟨b, d⟩ := bd
            rw [hin] at h
            cases b with
            | true =>
                exact ihNbs done path node (adj g node) d hchain
                  (fun x hx => hx) hin
            | false => simp at h
      · intro done pt node nbs d' hchain hnbs h
        cases nbs with
        | nil =>
            rw [dfsGo_inr_nil] at h
            simp at h
        | cons nb rest =>
            rw [dfsGo_inr_cons] at h
            by_cases hv : nb ∈ done ∨ nb ∈ node :: pt
            · rw [if_pos hv] at h
              by_cases hp : nb ∈ node :: pt
              · have hedge : edgeG g node nb :=
                  hnbs nb (List.mem_cons_self _ _)
                have hreach : Relation.ReflTransGen (edgeG g) nb node :=
                  chain_reach g pt node nb hchain hp
                exact ⟨node, Relation.TransGen.head' hedge hreach⟩
              · rw [if_neg hp] at h
                exact ihNbs done pt node rest d' hchain
                  (fun x hx => hnbs x (List.mem_cons_of_mem _ hx)) h
            · rw [if_neg hv] at h
              cases hin : dfsGo g n done (node :: pt) (.inl nb) with
              | none => rw [hin] at h; cases h
              | some bd =>
                  obtain ⟨b, d⟩ := bd
                  rw [hin] at h
                  cases b with
                  | true =>
                      have hchain' : List.Chain' (fun a b => a ∈ adj g b)
                          (nb :: node :: pt) :=
                        List.chain'_cons.mpr
                          ⟨hnbs nb (List.mem_cons_self _ _), hchain⟩
                      exact ihNode done (node :: pt) nb d hchain' hin
                  | false =>
                      dsimp only at h
                      exact ihNbs d pt node rest d' hchain
                        (fun x hx => hnbs x (List.mem_cons_of_mem _ hx)) h

theorem dfsRoot_sound (g : List (String × List String)) (fuel : Nat) :
    ∀ (tasks : List Task) (done : List String),
    dfsRoot g fuel done tasks = some true →
    ∃ n, Relation.TransGen (edgeG g) n n := by
  intro tasks
  induction tasks with
  | nil =>
      intro done h
      rw [dfsRoot_nil] at h
      simp at h
  | cons t rest ih =>
      intro done h
      rw [dfsRoot_cons] at h
      by_cases hv : t.task_id ∈ done
      · rw [if_pos hv] at h
        exact ih done h
      · rw [if_neg hv] at h
        cases hin : dfsGo g fuel done [] (.inl t.task_id) with
        | none => rw [hin] at h; cases h
        | some bd =>
            obtain ⟨b, d⟩ := bd
            rw [hin] at h
            cases b with
            | true =>
                exact (dfsGo_sound g fuel).1 done [] t.task_id d
                  (List.chain'_singleton _) hin
            | false =>
                dsimp only at h
                exact ih d h

/-- The visited set only grows. -/
theorem dfsGo_mono (g : List (String × List String)) : ∀ fuel : Nat,
    (∀ (done path : List String) (node : String) (b : Bool)
      (d' : List String),
      dfsGo g fuel done path (.inl node) = some (b, d') →
      ∀ x ∈ done, x ∈ d') ∧
    (∀ (done path : List String) (node : String) (nbs : List String)
      (b : Bool) (d' : List String),
      dfsGo g fuel done path (.inr (node, nbs)) = some (b, d') →
      ∀ x ∈ done, x ∈ d') := by
  intro fuel
  induction fuel with
  | zero =>
      refine ⟨?_, ?_⟩
      · intro done path node b d' h
        rw [dfsGo_zero] at h
        cases h
      · intro done path node nbs b d' h
        rw [dfsGo_zero] at h
        cases h
  | succ n ih =>
      obtain ⟨ihNode, ihNbs⟩ := ih
      refine ⟨?_, ?_⟩
      · intro done path node b d' h
        rw [dfsGo_inl] at h
        cases hin : dfsGo g n done (node :: path) (.inr (node, adj g node)) with
        | none => rw [hin] at h; cases h
        | some bd =>
            obtain ⟨b0, d⟩ := bd
            rw [hin] at h
            cases b0 with
            | true =>
                dsimp only at h
                injection h with h
                injection h with h1 h2
                subst h2
                exact ihNbs done (node :: path) node (adj g node) true d hin
            | false =>
                dsimp only at h
                injection h with h
                injection h with h1 h2
                subst h2
                intro x hx
                exact List.mem_cons_of_mem _
                  (ihNbs done (node :: path) node (adj g node) false d hin x hx)
      · intro done path node nbs b d' h
        cases nbs with
        | nil =>
            rw [dfsGo_inr_nil] at h
            injection h with h
            injection h with h1 h2
            subst h2
            intro x hx
            exact hx
        | cons nb rest =>
            rw [dfsGo_inr_cons] at h
            by_cases hv : nb ∈ done ∨ nb ∈ path
            · rw [if_pos hv] at h
              by_cases hp : nb ∈ path
              · rw [if_pos hp] at h
                injection h with h
                injection h with h1 h2
                subst h2
                intro x hx
                exact hx
              · rw [if_neg hp] at h
                exact ihNbs done path node rest b d' h
            · rw [if_neg hv] at h
              cases hin : dfsGo g n done path (.inl nb) with
              | none => rw [hin] at h; cases h
              | some bd =>
                  obtain ⟨b0, d⟩ := bd
                  rw [hin] at h
                  cases b0 with
                  | true =>
                      dsimp only at h
                      injection h with h
                      injection h with h1 h2
                      subst h2
                      exact ihNode done path nb true d hin
                  | false =>
                      dsimp only at h
                      intro x hx
                      exact ihNbs d path node rest b d' h x
                        (ihNode done path nb false d hin x hx)

/-- Completion order: each completed node's neighbors were completed before
it.  This is an acyclicity certificate. -/
def GoodDone (g : List (String × List String)) : List String → Prop
  | [] => True
  | x :: rest => (∀ y ∈ adj g x, y ∈ rest) ∧ GoodDone g rest

theorem goodDone_closed (g : List (String × List String)) :
    ∀ done, GoodDone g done → ∀ a ∈ done, ∀ b, edgeG g a b → b ∈ done := by
  intro done
  induction done with
  | nil => intro _ a ha; cases ha
  | cons c rest ih =>
      intro hg a ha b hab
      rcases List.mem_cons.mp ha with rfl | ha'
      · exact List.mem_cons_of_mem _ (hg.1 b hab)
      · exact List.mem_cons_of_mem _ (ih hg.2 a ha' b hab)

theorem goodDone_reach (g : List (String × List String)) (done : List String)
    (hg : GoodDone g done) {a b : String} (ha : a ∈ done)
    (h : Relation.ReflTransGen (edgeG g) a b) : b ∈ done := by
  induction h with
  | refl => exact ha
  | tail _ h2 ih => exact goodDone_closed g done hg _ ih _ h2

theorem goodDone_no_cycle (g : List (String × List String)) :
    ∀ done, GoodDone g done →
    ∀ x ∈ done, ¬ Relation.TransGen (edgeG g) x x := by
  intro done
  induction done with
  | nil => intro _ x hx; cases hx
  | cons c rest ih =>
      intro hg x hx hcyc
      rcases List.mem_cons.mp hx with rfl | hx'
      · obtain ⟨y, hxy, hyx⟩ := Relation.TransGen.head'_iff.mp hcyc
        have hy : y ∈ rest := hg.1 y hxy
        have hxr : x ∈ rest := goodDone_reach g rest hg.2 hy hyx
        exact ih hg.2 x hxr hcyc
      · exact ih hg.2 x hx' hcyc

/-- Completeness invariant: a `false` run extends the completion order,
completing the visited node and (for the neighbor walk) all its
neighbors. -/
theorem dfsGo_complete (g : List (String × List String)) : ∀ fuel : Nat,
    (∀ (done path : List String) (node : String) (d' : List String),
      GoodDone g done →
      dfsGo g fuel done path (.inl node) = some (false, d') →
      GoodDone g d' ∧ node ∈ d') ∧
    (∀ (done path : List String) (node : String) (nbs : List String)
      (d' : List String),
      GoodDone g done →
      dfsGo g fuel done path (.inr (node, nbs)) = some (false, d') →
      GoodDone g d' ∧ ∀ x ∈ nbs, x ∈ d') := by
  intro fuel
  induction fuel with
  | zero =>
      refine ⟨?_, ?_⟩
      · intro done path node d' _ h
        rw [dfsGo_zero] at h
        cases h
      · intro done path node nbs d' _ h
        rw [dfsGo_zero] at h
        cases h
  | succ n ih =>
      obtain ⟨ihNode, ihNbs⟩ := ih
      refine ⟨?_, ?_⟩
      · intro done path node d' hg h
        rw [dfsGo_inl] at h
        cases hin : dfsGo g n done (node :: path) (.inr (node, adj g node)) with
        | none => rw [hin] at h; cases h
        | some bd =>
            obtain ⟨b0, d⟩ := bd
            rw [hin] at h
            cases b0 with
            | true => simp at h
            | false =>
                dsimp only at h
                injection h with h
                injection h with h1 h2
                subst h2
                obtain ⟨hgd, hadj⟩ :=
                  ihNbs done (node :: path) node (adj g node) d hg hin
                exact ⟨⟨hadj, hgd⟩, List.mem_cons_self _ _⟩
      · intro done path node nbs d' hg h
        cases nbs with
        | nil =>
            rw [dfsGo_inr_nil] at h
            injection h with h
            injection h with h1 h2
            subst h2
            exact ⟨hg, fun x hx => absurd hx (List.not_mem_nil x)⟩
        | cons nb rest =>
            rw [dfsGo_inr_cons] at h
            by_cases hv : nb ∈ done ∨ nb ∈ path
            · rw [if_pos hv] at h
              by_cases hp : nb ∈ path
              · rw [if_pos hp] at h
                simp at h
              · rw [if_neg hp] at h
                obtain ⟨hgd, hrest⟩ := ihNbs done path node rest d' hg h
                have hnb : nb ∈ done := by
                  rcases hv with h1 | h2
                  · exact h1
                  · exact absurd h2 hp
                refine ⟨hgd, ?_⟩
                intro x hx
                rcases List.mem_cons.mp hx with rfl | hx'
                · exact (dfsGo_mono g n).2 done path node rest false d' h x hnb
                · exact hrest x hx'
            · rw [if_neg hv] at h
              cases hin : dfsGo g n done path (.inl nb) with
              | none => rw [hin] at h; cases h
              | some bd =>
                  obtain ⟨b0, d⟩ := bd
                  rw [hin] at h
                  cases b0 with
                  | true => simp at h
                  | false =>
                      dsimp only at h
                      obtain ⟨hgd, hnbd⟩ := ihNode done path nb d hg hin
                      obtain ⟨hgd', hrest⟩ := ihNbs d path node rest d' hgd h
                      refine ⟨hgd', ?_⟩
                      intro x hx
                      rcases List.mem_cons.mp hx with rfl | hx'
                      · exact (dfsGo_mono g n).2 d path node rest false d' h x hnbd
                      · exact hrest x hx'

theorem dfsRoot_complete (g : List (String × List String)) (fuel : Nat) :
    ∀ (tasks : List Task) (done : List String), GoodDone g done →
    dfsRoot g fuel done tasks = some false →
    ∃ doneF, GoodDone g doneF ∧ (∀ x ∈ done, x ∈ doneF) ∧
      ∀ t ∈ tasks, t.task_id ∈ doneF := by
  intro tasks
  induction tasks with
  | nil =>
      intro done hg _
      exact ⟨done, hg, fun x hx => hx, fun t ht => absurd ht (List.not_mem_nil t)⟩
  | cons t rest ih =>
      intro done hg h
      rw [dfsRoot_cons] at h
      by_cases hv : t.task_id ∈ done
      · rw [if_pos hv] at h
        obtain ⟨doneF, hgF, hsub, hall⟩ := ih done hg h
        refine ⟨doneF, hgF, hsub, ?_⟩
        intro u hu
        rcases List.mem_cons.mp hu with rfl | hu'
        · exact hsub _ hv
        · exact hall u hu'
      · rw [if_neg hv] at h
        cases hin : dfsGo g fuel done [] (.inl t.task_id) with
        | none => rw [hin] at h; cases h
        | some bd =>
            obtain ⟨b0, d⟩ := bd
            rw [hin] at h
            cases b0 with
            | true => simp at h
            | false =>
                dsimp only at h
                obtain ⟨hgd, htid⟩ :=
                  (dfsGo_complete g fuel).1 done [] t.task_id d hg hin
                obtain ⟨doneF, hgF, hsub, hall⟩ := ih d hgd h
                refine ⟨doneF, hgF, ?_, ?_⟩
                · intro x hx
                  exact hsub x ((dfsGo_mono g fuel).1 done [] t.task_id false d hin x hx)
                · intro u hu
                  rcases List.mem_cons.mp hu with rfl | hu'
                  · exact hsub _ htid
                  · exact hall u hu'

/-- Weight of a node for the fuel bound: its entry step plus one step per
neighbor. -/
def nodeW (g : List (String × List String)) (x : String) : Nat :=
  1 + (adj g x).length

/-- Total weight of the not-yet-visited universe nodes. -/
def unvisitedW (g : List (String × List String)) (U done path : List String) :
    Nat :=
  ((U.filter (fun x => decide (¬ (x ∈ done ∨ x ∈ path)))).map (nodeW g)).sum

theorem unvisitedW_mono (g : List (String × List String)) (U : List String)
    (done1 path1 done2 path2 : List String)
    (h : ∀ x : String, (x ∈ done1 ∨ x ∈ path1) → (x ∈ done2 ∨ x ∈ path2)) :
    unvisitedW g U done2 path2 ≤ unvisitedW g U done1 path1 := by
  unfold unvisitedW
  induction U with
  | nil => exact le_refl _
  | cons u U' ih =>
      rw [List.filter_cons, List.filter_cons]
      by_cases h2 : u ∈ done2 ∨ u ∈ path2
      · rw [if_neg (by simp only [decide_eq_true_eq, not_not]; exact h2)]
        by_cases h1 : u ∈ done1 ∨ u ∈ path1
        · rw [if_neg (by simp only [decide_eq_true_eq, not_not]; exact h1)]
          exact ih
        · rw [if_pos (decide_eq_true h1)]
          calc ((U'.filter _).map (nodeW g)).sum
              ≤ ((U'.filter _).map (nodeW g)).sum := ih
            _ ≤ _ := by
                rw [List.map_cons, List.sum_cons]
                omega
      · have h1 : ¬ (u ∈ done1 ∨ u ∈ path1) := fun hx => h2 (h u hx)
        rw [if_pos (decide_eq_true h2), if_pos (decide_eq_true h1),
          List.map_cons, List.sum_cons, List.map_cons, List.sum_cons]
        omega

theorem unvisitedW_push (g : List (String × List String)) :
    ∀ (U done path : List String) (node : String), node ∈ U →
    ¬ (node ∈ done ∨ node ∈ path) →
    unvisitedW g U done (node :: path) + nodeW g node
      ≤ unvisitedW g U done path := by
  intro U
  induction U with
  | nil => intro done path node hU; cases hU
  | cons u U' ih =>
      intro done path node hU hunvis
      unfold unvisitedW
      rw [List.filter_cons, List.filter_cons]
      by_cases hu : u = node
      · subst hu
        have hneg : ¬ ((decide (¬ (u ∈ done ∨ u ∈ u :: path))) = true) := by
          simp only [decide_eq_true_eq, not_not]
          exact Or.inr (List.mem_cons_self _ _)
        rw [if_neg hneg, if_pos (decide_eq_true hunvis),
          List.map_cons, List.sum_cons]
        have hmono : unvisitedW g U' done (u :: path)
            ≤ unvisitedW g U' done path :=
          unvisitedW_mono g U' done path done (u :: path)
            (fun x hx => by
              rcases hx with hx1 | hx2
              · exact Or.inl hx1
              · exact Or.inr (List.mem_cons_of_mem _ hx2))
        unfold unvisitedW at hmono
        omega
      · have heq : (node ∈ done ∨ node ∈ path) → False := hunvis
        have hU' : node ∈ U' := by
          rcases List.mem_cons.mp hU with rfl | h
          · exact absurd rfl hu
          · exact h
        have hiff : (u ∈ done ∨ u ∈ node :: path) ↔ (u ∈ done ∨ u ∈ path) := by
          constructor
          · intro hx
            rcases hx with hx1 | hx2
            · exact Or.inl hx1
            · rcases List.mem_cons.mp hx2 with rfl | hx3
              · exact absurd rfl hu
              · exact Or.inr hx3
          · intro hx
            rcases hx with hx1 | hx2
            · exact Or.inl hx1
            · exact Or.inr (List.mem_cons_of_mem _ hx2)
        have hih := ih done path node hU' hunvis
        unfold unvisitedW at hih
        by_cases hvis : u ∈ done ∨ u ∈ path
        · have hneg1 : ¬ ((decide (¬ (u ∈ done ∨ u ∈ node :: path))) = true) := by
            simp only [decide_eq_true_eq, not_not]
            exact hiff.mpr hvis
          have hneg2 : ¬ ((decide (¬ (u ∈ done ∨ u ∈ path))) = true) := by
            simp only [decide_eq_true_eq, not_not]
            exact hvis
          rw [if_neg hneg1, if_neg hneg2]
          exact hih
        · have hnv : ¬ (u ∈ done ∨ u ∈ node :: path) :=
            fun hx => hvis (hiff.mp hx)
          rw [if_pos (decide_eq_true hnv),
            if_pos (decide_eq_true hvis),
            List.map_cons, List.sum_cons, List.map_cons, List.sum_cons]
          omega

theorem dfsGo_adequate (g : List (String × List String)) (U : List String)
    (hadj : ∀ y : String, ∀ x ∈ adj g y, x ∈ U) : ∀ fuel : Nat,
    (∀ (done path : List String) (node : String), node ∈ U →
      ¬ (node ∈ done ∨ node ∈ path) →
      unvisitedW g U done path < fuel →
      dfsGo g fuel done path (.inl node) ≠ none) ∧
    (∀ (done path : List String) (node : String) (nbs : List String),
      (∀ x ∈ nbs, x ∈ U) →
      unvisitedW g U done path + nbs.length < fuel →
      dfsGo g fuel done path (.inr (node, nbs)) ≠ none) := by
  intro fuel
  induction fuel with
  | zero =>
      refine ⟨?_, ?_⟩
      · intro done path node _ _ hW
        exact absurd hW (Nat.not_lt_zero _)
      · intro done path node nbs _ hW
        exact absurd hW (Nat.not_lt_zero _)
  | succ n ih =>
      obtain ⟨ihNode, ihNbs⟩ := ih
      refine ⟨?_, ?_⟩
      · intro done path node hU hunvis hW hcontra
        rw [dfsGo_inl] at hcontra
        have hpush := unvisitedW_push g U done path node hU hunvis
        have hWn : unvisitedW g U done (node :: path) + (adj g node).length < n := by
          unfold nodeW at hpush
          omega
        cases hin : dfsGo g n done (node :: path) (.inr (node, adj g node)) with
        | none =>
            exact ihNbs done (node :: path) node (adj g node) (hadj node) hWn hin
        | some bd =>
            obtain ⟨b, d⟩ := bd
            rw [hin] at hcontra
            cases b <;> simp at hcontra
      · intro done path node nbs hnbsU hW hcontra
        cases nbs with
        | nil =>
            rw [dfsGo_inr_nil] at hcontra
            cases hcontra
        | cons nb rest =>
            rw [dfsGo_inr_cons] at hcontra
            by_cases hv : nb ∈ done ∨ nb ∈ path
            · rw [if_pos hv] at hcontra
              by_cases hp : nb ∈ path
              · rw [if_pos hp] at hcontra
                cases hcontra
              · rw [if_neg hp] at hcontra
                refine ihNbs done path node rest
                  (fun x hx => hnbsU x (List.mem_cons_of_mem _ hx)) ?_ hcontra
                simp only [List.length_cons] at hW
                omega
            · rw [if_neg hv] at hcontra
              cases hin : dfsGo g n done path (.inl nb) with
              | none =>
                  refine ihNode done path nb (hnbsU nb (List.mem_cons_self _ _))
                    hv ?_ hin
                  simp only [List.length_cons] at hW
                  omega
              | some bd =>
                  obtain ⟨b, d⟩ := bd
                  rw [hin] at hcontra
                  cases b with
                  | true => cases hcontra
                  | false =>
                      dsimp only at hcontra
                      have hdone : ∀ x ∈ done, x ∈ d :=
                        (dfsGo_mono g n).1 done path nb false d hin
                      have hWd : unvisitedW g U d path
                          ≤ unvisitedW g U done path :=
                        unvisitedW_mono g U done path d path
                          (fun x hx => by
                            rcases hx with hx1 | hx2
                            · exact Or.inl (hdone x hx1)
                            · exact Or.inr hx2)
                      refine ihNbs d path node rest
                        (fun x hx => hnbsU x (List.mem_cons_of_mem _ hx)) ?_
                        hcontra
                      simp only [List.length_cons] at hW
                      omega

theorem dfsRoot_adequate (g : List (String × List String)) (U : List String)
    (hadj : ∀ y : String, ∀ x ∈ adj g y, x ∈ U) (fuel : Nat) :
    ∀ (tasks : List Task) (done : List String),
    (∀ t ∈ tasks, t.task_id ∈ U) →
    unvisitedW g U done [] < fuel →
    dfsRoot g fuel done tasks ≠ none := by
  intro tasks
  induction tasks with
  | nil =>
      intro done _ _ h
      rw [dfsRoot_nil] at h
      cases h
  | cons t rest ih =>
      intro done hids hW hcontra
      rw [dfsRoot_cons] at hcontra
      by_cases hv : t.task_id ∈ done
      · rw [if_pos hv] at hcontra
        exact ih done (fun u hu => hids u (List.mem_cons_of_mem _ hu)) hW hcontra
      · rw [if_neg hv] at hcontra
        cases hin : dfsGo g fuel done [] (.inl t.task_id) with
        | none =>
            refine (dfsGo_adequate g U hadj fuel).1 done [] t.task_id
              (hids t (List.mem_cons_self _ _)) ?_ hW hin
            intro hx
            rcases hx with hx1 | hx2
            · exact hv hx1
            · cases hx2
        | some bd =>
            obtain ⟨b, d⟩ := bd
            rw [hin] at hcontra
            cases b with
            | true => cases hcontra
            | false =>
                dsimp only at hcontra
                have hdone : ∀ x ∈ done, x ∈ d :=
                  (dfsGo_mono g fuel).1 done [] t.task_id false d hin
                have hWd : unvisitedW g U d [] ≤ unvisitedW g U done [] :=
                  unvisitedW_mono g U done [] d []
                    (fun x hx => by
                      rcases hx with hx1 | hx2
                      · exact Or.inl (hdone x hx1)
                      · cases hx2)
                exact ih d (fun u hu => hids u (List.mem_cons_of_mem _ hu))
                  (lt_of_le_of_lt hWd hW) hcontra

theorem has_circular_adequate (p : Project) :
    p.has_circular_dependency = some p.has_circular_bool := by
  have hadj : ∀ y : String, ∀ x ∈ adj (graphOf p) y, x ∈ universeOf p := by
    intro y x hx
    unfold adj at hx
    cases hl : (graphOf p).lookup y with
    | none => rw [hl] at hx; cases hx
    | some l =>
        rw [hl] at hx
        rcases graph_lookup_some p.tasks [] y l hl with h1 | h2
        · obtain ⟨t, ht, _, hdl⟩ := h1
          unfold universeOf
          apply List.mem_append_right
          rw [List.mem_flatten]
          exact ⟨t.dependencies, List.mem_map_of_mem Task.dependencies ht,
            hdl ▸ hx⟩
        · cases h2
  have hids : ∀ t ∈ p.tasks, t.task_id ∈ universeOf p := by
    intro t ht
    unfold universeOf
    exact List.mem_append_left _ (List.mem_map_of_mem Task.task_id ht)
  have hW : unvisitedW (graphOf p) (universeOf p) [] [] < dfsFuel p := by
    unfold unvisitedW dfsFuel nodeW
    have hfil : (universeOf p).filter
        (fun x => decide (¬ (x ∈ ([] : List String) ∨ x ∈ ([] : List String))))
        = universeOf p := by
      apply List.filter_eq_self.mpr
      intro a _
      simp
    rw [hfil]
    omega
  have hne := dfsRoot_adequate (graphOf p) (universeOf p) hadj (dfsFuel p)
    p.tasks [] hids hW
  unfold Project.has_circular_bool Project.has_circular_dependency
  unfold Project.has_circular_dependency at hne
  cases h : dfsRoot (graphOf p) (dfsFuel p) [] p.tasks with
  | none => exact absurd h hne
  | some b => rfl

theorem hasCircularBool_iff (p : Project)
    (hnd : (p.tasks.map Task.task_id).Nodup) :
    p.has_circular_bool = true ↔
      ∃ n, Relation.TransGen (depEdge p) n n := by
  rw [← transGen_exists_congr (edgeG_iff_depEdge hnd)]
  constructor
  · intro h
    have hsome := has_circular_adequate p
    rw [h] at hsome
    exact dfsRoot_sound (graphOf p) (dfsFuel p) p.tasks [] hsome
  · intro hcyc
    by_contra hfalse
    have hb : p.has_circular_bool = false := by
      cases hcb : p.has_circular_bool with
      | true => exact absurd hcb hfalse
      | false => rfl
    have hsome := has_circular_adequate p
    rw [hb] at hsome
    obtain ⟨doneF, hgF, _, hall⟩ :=
      dfsRoot_complete (graphOf p) (dfsFuel p) p.tasks [] trivial hsome
    obtain ⟨n, hn⟩ := hcyc
    obtain ⟨y, hny, _⟩ := Relation.TransGen.head'_iff.mp hn
    obtain ⟨t, ht, hta⟩ := edgeG_graphOf_key hny
    have hnF : n ∈ doneF := hta ▸ hall t ht
    exact goodDone_no_cycle (graphOf p) doneF hgF n hnF hn

theorem foldl_append_eq_flatten {α β : Type} (f : α → List β) :
    ∀ (l : List α) (init : List β),
    l.foldl (fun acc x => acc ++ f x) init = init ++ (l.map f).flatten := by
  intro l
  induction l with
  | nil => intro init; simp
  | cons x xs ih =>
      intro init
      rw [List.foldl_cons, ih, List.map_cons, List.flatten_cons,
        List.append_assoc]

/-- C4: `validate_dependencies` returns exactly one error per missing
dependency reference (in task order, each message naming the offending task
and the missing id), followed by the single circular-dependency error
exactly when the dependency graph — edges from each task id to its declared
dependencies — contains a cycle (a nonempty edge path from a node to
itself); in particular the list is empty for an acyclic fully-resolving
Project.  Stated for projects with distinct task ids (the graph is otherwise
not well-defined); the embedding is a pure function, so the Project is not
mutated. -/
theorem c4_validate_dependencies (p : Project)
    (hnd : (p.tasks.map Task.task_id).Nodup) :
    (p.validate_dependencies =
      (p.tasks.map (fun t =>
        (t.dependencies.filter
          (fun d => ¬ (p.tasks.map Task.task_id).contains d)).map
          (fun d => "Task " ++ qm ++ t.name ++ qm ++
            " depends on non-existent task " ++ qm ++ d ++ qm))).flatten ++
      (if p.has_circular_bool then ["Project has circular dependencies"]
       else [])) ∧
    (p.has_circular_bool = true ↔
      ∃ n, Relation.TransGen (depEdge p) n n) := by
  refine ⟨?_, hasCircularBool_iff p hnd⟩
  unfold Project.validate_dependencies
  simp only [foldl_append_eq_flatten]
  rfl

/-- C4 witness: the theorem applied to the two-task cyclic project
(X depends on y, Y depends on x). -/
theorem c4_validate_dependencies_witness :
    (projCyc.tasks.map Task.task_id).Nodup ∧
    ((projCyc.validate_dependencies =
      (projCyc.tasks.map (fun t =>
        (t.dependencies.filter
          (fun d => ¬ (projCyc.tasks.map Task.task_id).contains d)).map
          (fun d => "Task " ++ qm ++ t.name ++ qm ++
            " depends on non-existent task " ++ qm ++ d ++ qm))).flatten ++
      (if projCyc.has_circular_bool then ["Project has circular dependencies"]
       else [])) ∧
    (projCyc.has_circular_bool = true ↔
      ∃ n, Relation.TransGen (depEdge projCyc) n n)) :=
  ⟨by with_unfolding_all decide,
   c4_validate_dependencies projCyc (by with_unfolding_all decide)⟩

end PCA
